import Mathlib

/-!
Verification of the dice reroll-strategy engine (widget.py).

The engine computes, by backward induction, the optimal keep/reroll strategy
for a generic multi-round dice game.  This file gives a shallow embedding of
the source in Lean and proves the specified properties about it.

Modelling conventions:
* a Python tuple of die faces becomes a `List ℕ`;
* Python float values become `ℚ` (the arithmetic performed by the engine,
  sums, division by the face count and maxima, is modelled exactly);
* a Python dict becomes an association list (`List (key × value)`) updated
  in place: writing to an existing key keeps its position, writing to a new
  key appends it, preserving the insertion order semantics of dict;
* a missing-key dict read (a KeyError in Python) is modelled by `Option.getD`
  with a default; all theorems carry totality hypotheses under which every
  read hits an existing key, so the default is never exercised;
* Python set objects held in the dp move dictionary are mutable and shared
  by reference, so they are modelled by a store (a list of set contents
  indexed by allocation order) plus a dictionary of references into the
  store; a set itself is a duplicate-free list of rolls whose element order
  is a modelling artifact (Python sets are unordered);
* raising an exception is modelled with `Except`.
-/

/-- A roll: the die face values of several dice, as in the source. -/
abbrev Roll := List ℕ

/-- Sorting of a roll into canonical ascending order, `tuple(sorted(roll))`. -/
def sortRoll (r : Roll) : Roll := r.insertionSort (· ≤ ·)

/-- Dict read: first value stored under an equal key, if any. -/
def getVal {α : Type} : List (Roll × α) → Roll → Option α
  | [], _ => none
  | (k, v) :: rest, key => if k = key then some v else getVal rest key

/-- Dict write: replace the value of an existing key in place, else append. -/
def setVal {α : Type} : List (Roll × α) → Roll → α → List (Roll × α)
  | [], key, v => [(key, v)]
  | (k, w) :: rest, key, v =>
    if k = key then (k, v) :: rest else (k, w) :: setVal rest key v

/-- Dict membership test, `key in table`. -/
def hasKey {α : Type} (t : List (Roll × α)) (key : Roll) : Bool :=
  (getVal t key).isSome

/-- A value table: dict from rolls to values. -/
abbrev ValTable := List (Roll × ℚ)

/-- A move table: dict from rolls to collections of kept rolls. -/
abbrev MoveTable := List (Roll × List Roll)

/-- One odometer step of `iter_possible_rolls`: locate the rightmost entry
below `faces`, increment it and reset every entry to its right to the new
value; `none` when every entry equals `faces` (the final tuple). -/
def rollSucc (faces : ℕ) : Roll → Option Roll
  | [] => none
  | x :: xs =>
    match rollSucc faces xs with
    | some ys => some (x :: ys)
    | none =>
      if x = faces then none
      else some ((x + 1) :: List.replicate xs.length (x + 1))

/-- The odometer loop of `iter_possible_rolls`: yield the current roll, then
continue from its successor.  The loop of the source terminates because each
step is a strict lexicographic increase; here that is expressed by a fuel
argument, and `faces ^ num_dice` fuel is proved sufficient below. -/
def iterFrom (faces : ℕ) : ℕ → Roll → List Roll
  | 0, _ => []
  | fuel + 1, r =>
    r :: (match rollSucc faces r with
          | none => []
          | some s => iterFrom faces fuel s)

/-- The roll enumerator `iter_possible_rolls(num_dice, num_faces)`: every
canonical roll of `num_dice` dice, starting from all ones.  A zero-dice call
yields exactly the empty roll. -/
def iter_possible_rolls (num_dice num_faces : ℕ) : List Roll :=
  if num_dice = 0 then [[]]
  else iterFrom num_faces (num_faces ^ num_dice) (List.replicate num_dice 1)

/-- The sub-roll test `is_subroll`: multiset containment of the face counts,
`Counter(subroll) <= Counter(roll)`. -/
def is_subroll (subroll roll : Roll) : Bool :=
  decide ((subroll : Multiset ℕ) ≤ (roll : Multiset ℕ))

/-- The two validation failures of `_parse_roll_values`, with the data the
source interpolates into the exception message. -/
inductive ParseError where
  | inconsistent (roll : Roll) (v1 v2 : ℚ)
  | missing (roll : Roll)
deriving DecidableEq

/-- The first loop of `_parse_roll_values`: canonicalize each supplied key,
raise on a duplicate canonical key carrying a different value, store the
value otherwise. -/
def parseLoop : ValTable → List (Roll × ℚ) → Except ParseError ValTable
  | acc, [] => Except.ok acc
  | acc, p :: rest =>
    let roll := sortRoll p.1
    match getVal acc roll with
    | some pre =>
      if pre ≠ p.2 then Except.error (ParseError.inconsistent roll pre p.2)
      else parseLoop (setVal acc roll p.2) rest
    | none => parseLoop (setVal acc roll p.2) rest

/-- `Widget._parse_roll_values`: canonicalize and check the supplied table,
then require every possible roll of `num_dice` dice to be present. -/
def parse_roll_values (nd nf : ℕ) (input : List (Roll × ℚ)) : Except ParseError ValTable :=
  match parseLoop [] input with
  | Except.error e => Except.error e
  | Except.ok parsed =>
    match (iter_possible_rolls nd nf).find? (fun r => !(hasKey parsed r)) with
    | some r => Except.error (ParseError.missing r)
    | none => Except.ok parsed

/-- `Widget._compute_values_given_kept`: starting from the next-round value
table, fill in the expected value of every kept subset, size descending. -/
def compute_values_given_kept (nd nf : ℕ) (next : ValTable) : ValTable :=
  ((List.range nd).reverse).foldl
    (fun acc num_kept =>
      (iter_possible_rolls num_kept nf).foldl
        (fun acc2 kept =>
          setVal acc2 kept
            ((((List.range nf).map
                (fun i => (getVal acc2 (sortRoll (kept ++ [i + 1]))).getD 0)).sum) / (nf : ℚ)))
        acc)
    next

/-- `Widget._compute_from_cond`: the brute-force resolver.  For every kept
subset and every completion of it, relax the value of the completed roll. -/
def compute_from_cond (nd nf : ℕ) (kao : Bool) (vgk : ValTable) : ValTable × MoveTable :=
  let roll_values : ValTable :=
    (iter_possible_rolls nd nf).map (fun r => (r, (getVal vgk r).getD 0))
  let optimal_moves : MoveTable :=
    (iter_possible_rolls nd nf).map (fun r => (r, [r]))
  ((List.range nd).reverse).foldl
    (fun st num_kept =>
      (iter_possible_rolls num_kept nf).foldl
        (fun st2 kept =>
          let value := (getVal vgk kept).getD 0
          (iter_possible_rolls (nd - num_kept) nf).foldl
            (fun st3 other =>
              let roll := sortRoll (kept ++ other)
              if value > (getVal st3.1 roll).getD 0 then
                (setVal st3.1 roll value, setVal st3.2 roll [kept])
              else if kao ∧ value = (getVal st3.1 roll).getD 0 then
                (st3.1, setVal st3.2 roll ((getVal st3.2 roll).getD [] ++ [kept]))
              else st3)
            st2)
        st)
    (roll_values, optimal_moves)

/-- Python set union update `a.update(b)`: add the members of `b` missing
from `a`.  The resulting member order is a modelling artifact. -/
def setUnion (a b : List Roll) : List Roll :=
  a ++ b.filter (fun x => !(a.contains x))

/-- The mutable state of the dp resolver.  `optimal_moves` in the source maps
each roll to a shared mutable set object; here `move_ref` maps each roll to
the index of its set in the allocation-ordered `store`.  Assigning
`optimal_moves[kept] = moves` copies the reference (the index), and
`optimal_moves[kept].update(moves)` mutates the store cell in place, exactly
as Python object semantics dictate. -/
structure DpState where
  roll_values : ValTable
  move_ref : List (Roll × ℕ)
  store : List (List Roll)

/-- First inner loop of `_compute_from_cond_dp` for one size layer: seed each
roll of that size with its conditional value and a fresh singleton move set. -/
def dpLayerInit (nf : ℕ) (vgk : ValTable) (num_kept : ℕ) (st : DpState) : DpState :=
  (iter_possible_rolls num_kept nf).foldl
    (fun s kept =>
      { roll_values := setVal s.roll_values kept ((getVal vgk kept).getD 0)
        move_ref := setVal s.move_ref kept s.store.length
        store := s.store ++ [[kept]] })
    st

/-- Second inner loop of `_compute_from_cond_dp` for one size layer: relax
every one-die extension of every roll of the previous size.  `value` and the
move reference `mid` are read once per predecessor, before the die loop, as
in the source. -/
def dpRelax (nf : ℕ) (kao : Bool) (num_kept : ℕ) (st : DpState) : DpState :=
  (iter_possible_rolls (num_kept - 1) nf).foldl
    (fun s prev_kept =>
      let value := (getVal s.roll_values prev_kept).getD 0
      let mid := (getVal s.move_ref prev_kept).getD 0
      (List.range nf).foldl
        (fun s2 die =>
          let kept := sortRoll (prev_kept ++ [die + 1])
          if value > (getVal s2.roll_values kept).getD 0 then
            { roll_values := setVal s2.roll_values kept value
              move_ref := setVal s2.move_ref kept mid
              store := s2.store }
          else if kao ∧ value = (getVal s2.roll_values kept).getD 0 then
            let kid := (getVal s2.move_ref kept).getD 0
            { s2 with
                store := s2.store.set kid
                  (setUnion ((s2.store.get? kid).getD []) ((s2.store.get? mid).getD [])) }
          else s2)
        s)
    st

/-- `Widget._compute_from_cond_dp`: the lattice dp resolver.  Process sizes
upward from the empty roll, then restrict both result dicts to full rolls,
materializing each move set through its reference. -/
def compute_from_cond_dp (nd nf : ℕ) (kao : Bool) (vgk : ValTable) : ValTable × MoveTable :=
  let st0 : DpState :=
    { roll_values := [([], (getVal vgk []).getD 0)]
      move_ref := [([], 0)]
      store := [[([] : Roll)]] }
  let stF := (List.range nd).foldl
    (fun st k => dpRelax nf kao (k + 1) (dpLayerInit nf vgk (k + 1) st)) st0
  (stF.roll_values.filter (fun p => p.1.length == nd),
   (stF.move_ref.filter (fun p => p.1.length == nd)).map
     (fun p => (p.1, (stF.store.get? p.2).getD [])))

/-- `Widget._compute_from_conditional_values`: select the resolver variant. -/
def compute_from_conditional_values (nd nf : ℕ) (kao udp : Bool) (vgk : ValTable) :
    ValTable × MoveTable :=
  if udp then compute_from_cond_dp nd nf kao vgk
  else compute_from_cond nd nf kao vgk

/-- `Widget._compute_strategy_one_roll`: one backward-induction step. -/
def compute_strategy_one_roll (nd nf : ℕ) (kao udp : Bool) (next : ValTable) :
    ValTable × MoveTable :=
  compute_from_conditional_values nd nf kao udp (compute_values_given_kept nd nf next)

/-- The per-round output tables of a solved widget. -/
structure Widget where
  roll_values : List ValTable
  optimal_moves : List MoveTable
deriving DecidableEq

/-- `Widget._compute_strategy_and_values`: fill the round tables from the
terminal round backward to round zero. -/
def compute_strategy_and_values (nd nf : ℕ) (kao udp : Bool) (nr : ℕ) (w : Widget) : Widget :=
  ((List.range (nr - 1)).reverse).foldl
    (fun w idx =>
      let res := compute_strategy_one_roll nd nf kao udp ((w.roll_values.get? (idx + 1)).getD [])
      { roll_values := w.roll_values.set idx res.1
        optimal_moves := w.optimal_moves.set idx res.2 })
    w

/-- `Widget.__init__`: parse and validate the terminal table, lay out the
round table lists, and run the backward induction. -/
def mkWidget (nd nf nr : ℕ) (kao udp : Bool) (input : List (Roll × ℚ)) :
    Except ParseError Widget :=
  match parse_roll_values nd nf input with
  | Except.error e => Except.error e
  | Except.ok parsed =>
    Except.ok (compute_strategy_and_values nd nf kao udp nr
      { roll_values := List.replicate (nr - 1) [] ++ [parsed]
        optimal_moves := List.replicate (nr - 1) [] })

/-! ### Specification-side notions -/

/-- A canonical roll for a given face count: ascending face values, each
between one and the face count. -/
def Canonical (nf : ℕ) (r : Roll) : Prop :=
  List.Sorted (· ≤ ·) r ∧ ∀ x ∈ r, 1 ≤ x ∧ x ≤ nf

instance (nf : ℕ) (r : Roll) : Decidable (Canonical nf r) := by
  unfold Canonical; infer_instance

/-- The best conditional value over all sub-multisets of a canonical roll;
for a sorted roll the canonical sub-multisets are exactly the sublists. -/
def maxOverSubrolls (c : Roll → ℚ) (r : Roll) : ℚ :=
  (r.sublists.map c).foldl max (c r)

/-- The expected-value recursion realized by `_compute_values_given_kept`:
with `fuel` dice still to draw, average the values of the one-die
extensions; at fuel zero read the next-round table. -/
def vgkFun (nf : ℕ) (c : Roll → ℚ) : ℕ → Roll → ℚ
  | 0, kept => c kept
  | fuel + 1, kept =>
    (((List.range nf).map (fun i => vgkFun nf c fuel (sortRoll (kept ++ [i + 1])))).sum) / (nf : ℚ)

/-! ### Association-list table lemmas -/

/-- The keys of a table, in storage order. -/
def keysOf {α : Type} (t : List (Roll × α)) : List Roll := t.map (·.1)

theorem getVal_setVal_self {α : Type} (t : List (Roll × α)) (k : Roll) (v : α) :
    getVal (setVal t k v) k = some v := by
  induction t with
  | nil => simp [setVal, getVal]
  | cons p rest ih =>
    obtain ⟨k0, v0⟩ := p
    by_cases h : k0 = k
    · simp [setVal, getVal, h]
    · simp [setVal, getVal, h, ih]

theorem getVal_setVal_ne {α : Type} (t : List (Roll × α)) (k k' : Roll) (v : α)
    (h : k ≠ k') : getVal (setVal t k v) k' = getVal t k' := by
  induction t with
  | nil => simp [setVal, getVal, h]
  | cons p rest ih =>
    obtain ⟨k0, v0⟩ := p
    by_cases h0 : k0 = k
    · subst h0
      simp [setVal, getVal, h]
    · simp only [setVal, if_neg h0, getVal]
      by_cases h1 : k0 = k'
      · simp [h1]
      · simp [h1, ih]

theorem mem_keysOf_iff {α : Type} (t : List (Roll × α)) (k : Roll) :
    k ∈ keysOf t ↔ (getVal t k).isSome := by
  induction t with
  | nil => simp [keysOf, getVal]
  | cons p rest ih =>
    obtain ⟨k0, v0⟩ := p
    by_cases h : k0 = k
    · simp [keysOf, getVal, h]
    · simp only [keysOf, List.map_cons, List.mem_cons, getVal, if_neg h]
      constructor
      · rintro (h1 | h1)
        · exact absurd h1.symm h
        · exact (ih.mp (by simpa [keysOf] using h1))
      · intro h1
        exact Or.inr (by simpa [keysOf] using ih.mpr h1)

theorem getVal_eq_none_iff {α : Type} (t : List (Roll × α)) (k : Roll) :
    getVal t k = none ↔ k ∉ keysOf t := by
  rw [mem_keysOf_iff]
  cases h : getVal t k <;> simp [h]

theorem hasKey_iff {α : Type} (t : List (Roll × α)) (k : Roll) :
    hasKey t k = true ↔ k ∈ keysOf t := by
  rw [hasKey, mem_keysOf_iff]

theorem keysOf_cons {α : Type} (p : Roll × α) (t : List (Roll × α)) :
    keysOf (p :: t) = p.1 :: keysOf t := rfl

theorem keysOf_setVal_of_mem {α : Type} (t : List (Roll × α)) (k : Roll) (v : α)
    (h : k ∈ keysOf t) : keysOf (setVal t k v) = keysOf t := by
  induction t with
  | nil => simp [keysOf] at h
  | cons p rest ih =>
    obtain ⟨k0, v0⟩ := p
    by_cases h0 : k0 = k
    · simp [setVal, h0, keysOf_cons]
    · have hk : k ∈ keysOf rest := by
        rcases List.mem_cons.mp (by simpa [keysOf_cons] using h) with h1 | h1
        · exact absurd h1.symm h0
        · exact h1
      simp only [setVal, if_neg h0, keysOf_cons]
      rw [ih hk]

theorem keysOf_setVal_of_not_mem {α : Type} (t : List (Roll × α)) (k : Roll) (v : α)
    (h : k ∉ keysOf t) : keysOf (setVal t k v) = keysOf t ++ [k] := by
  induction t with
  | nil => simp [setVal, keysOf]
  | cons p rest ih =>
    obtain ⟨k0, v0⟩ := p
    have h0 : k0 ≠ k := by
      intro h1
      exact h (by simp [keysOf_cons, h1])
    have hk : k ∉ keysOf rest := by
      intro h1
      exact h (by simp [keysOf_cons, h1])
    simp only [setVal, if_neg h0, keysOf_cons]
    rw [ih hk]
    rfl

theorem getVal_map_pair {α : Type} (l : List Roll) (g : Roll → α) (k : Roll) :
    getVal (l.map (fun r => (r, g r))) k = if k ∈ l then some (g k) else none := by
  induction l with
  | nil => simp [getVal]
  | cons a rest ih =>
    by_cases h : a = k
    · subst h
      simp [getVal]
    · simp [getVal, h, ih, Ne.symm h]

theorem getVal_filter_length {α : Type} (t : List (Roll × α)) (n : ℕ) (k : Roll) :
    getVal (t.filter (fun p => p.1.length == n)) k =
      if k.length = n then getVal t k else none := by
  induction t with
  | nil => simp [getVal]
  | cons p rest ih =>
    obtain ⟨k0, v0⟩ := p
    by_cases hl : k0.length = n
    · rw [List.filter_cons_of_pos (by simpa using hl)]
      by_cases h : k0 = k
      · subst h
        simp [getVal, hl]
      · simp [getVal, h, ih]
    · rw [List.filter_cons_of_neg (by simpa using hl)]
      rw [ih]
      by_cases hk : k.length = n
      · have h : k0 ≠ k := by
          intro h1
          exact hl (h1 ▸ hk)
        simp [getVal, h, hk]
      · simp [hk]

/-! ### Folding helpers -/

theorem foldl_inv {σ α : Type} (f : σ → α → σ) (P : List α → σ → Prop) :
    ∀ (l done : List α) (acc : σ), P done acc →
      (∀ d a r acc2, done ++ l = d ++ a :: r → P d acc2 → P (d ++ [a]) (f acc2 a)) →
      P (done ++ l) (List.foldl f acc l) := by
  intro l
  induction l with
  | nil => intro done acc h _; simpa using h
  | cons a rest ih =>
    intro done acc h hstep
    have h1 : P (done ++ [a]) (f acc a) := hstep done a rest acc rfl h
    have h2 := ih (done ++ [a]) (f acc a) h1 (by
      intro d b r acc2 he hd
      exact hstep d b r acc2 (by simpa using he) hd)
    simpa using h2

theorem foldl_proj {σ τ α : Type} (f : σ → α → σ) (g : τ → α → τ) (pr : σ → τ)
    (h : ∀ s a, pr (f s a) = g (pr s) a) :
    ∀ (l : List α) (s : σ), pr (List.foldl f s l) = List.foldl g (pr s) l := by
  intro l
  induction l with
  | nil => intro s; rfl
  | cons a rest ih => intro s; rw [List.foldl_cons, List.foldl_cons, ih, h]

theorem foldl_flatMap {σ α β : Type} (f : σ → β → σ) (g : α → List β)
    (l : List α) (s : σ) :
    List.foldl f s (l.flatMap g) = List.foldl (fun acc x => List.foldl f acc (g x)) s l := by
  induction l generalizing s with
  | nil => rfl
  | cons a rest ih => simp [List.flatMap_cons, List.foldl_append, ih]

/-! ### Sorting and canonicity lemmas -/

theorem sortRoll_sorted (r : Roll) : List.Sorted (· ≤ ·) (sortRoll r) :=
  List.sorted_insertionSort _ r

theorem sortRoll_perm (r : Roll) : (sortRoll r).Perm r :=
  List.perm_insertionSort _ r

theorem sortRoll_eq_of_sorted {r : Roll} (h : List.Sorted (· ≤ ·) r) : sortRoll r = r :=
  List.eq_of_perm_of_sorted (sortRoll_perm r) (sortRoll_sorted r) h

theorem mem_sortRoll {r : Roll} {x : ℕ} : x ∈ sortRoll r ↔ x ∈ r :=
  (sortRoll_perm r).mem_iff

theorem length_sortRoll (r : Roll) : (sortRoll r).length = r.length :=
  (sortRoll_perm r).length_eq

theorem canonical_nil (nf : ℕ) : Canonical nf [] :=
  ⟨List.sorted_nil, by simp⟩

theorem Canonical.sublist {nf : ℕ} {k r : Roll} (hr : Canonical nf r) (h : List.Sublist k r) :
    Canonical nf k :=
  ⟨hr.1.sublist h, fun x hx => hr.2 x (h.subset hx)⟩

theorem canonical_sortRoll_append {nf : ℕ} {kept : Roll} (hk : Canonical nf kept)
    {i : ℕ} (h1 : 1 ≤ i) (h2 : i ≤ nf) : Canonical nf (sortRoll (kept ++ [i])) := by
  refine ⟨sortRoll_sorted _, ?_⟩
  intro x hx
  rcases (by simpa using mem_sortRoll.mp hx : x ∈ kept ∨ x = i) with h | h
  · exact hk.2 x h
  · exact h ▸ ⟨h1, h2⟩

theorem length_sortRoll_append (kept : Roll) (i : ℕ) :
    (sortRoll (kept ++ [i])).length = kept.length + 1 := by
  rw [length_sortRoll, List.length_append, List.length_cons, List.length_nil]

/-! ### Odometer successor lemmas -/

theorem sorted_replicate (n a : ℕ) : List.Sorted (· ≤ ·) (List.replicate n a) :=
  List.pairwise_replicate.mpr (Or.inr le_rfl)

theorem rollSucc_eq_none_iff (f : ℕ) (r : Roll) :
    rollSucc f r = none ↔ ∀ x ∈ r, x = f := by
  induction r with
  | nil => simp [rollSucc]
  | cons x xs ih =>
    simp only [rollSucc]
    cases h : rollSucc f xs with
    | some ys =>
      simp only []
      constructor
      · intro h1; exact absurd h1 (by simp)
      · intro h1
        have h2 : rollSucc f xs = none := ih.mpr (fun y hy => h1 y (List.mem_cons_of_mem _ hy))
        rw [h] at h2; exact absurd h2 (by simp)
    | none =>
      by_cases hx : x = f
      · simp only [if_pos hx]
        constructor
        · intro _ y hy
          rcases List.mem_cons.mp hy with h1 | h1
          · exact h1 ▸ hx
          · exact (ih.mp h) y h1
        · intro _; trivial
      · simp only [if_neg hx]
        constructor
        · intro h1; exact absurd h1 (by simp)
        · intro h1; exact absurd (h1 x (List.mem_cons_self x xs)) hx

theorem rollSucc_spec {f : ℕ} :
    ∀ {r s : Roll}, Canonical f r → rollSucc f r = some s →
      Canonical f s ∧ s.length = r.length ∧
        ∀ l : ℕ, (∀ e ∈ r, l ≤ e) → ∀ e ∈ s, l ≤ e := by
  intro r
  induction r with
  | nil => intro s _ hs; simp [rollSucc] at hs
  | cons x xs ih =>
    intro s hr hs
    have hxle : ∀ e ∈ xs, x ≤ e := (List.sorted_cons.mp hr.1).1
    have hxs : Canonical f xs := ⟨(List.sorted_cons.mp hr.1).2,
      fun y hy => hr.2 y (List.mem_cons_of_mem _ hy)⟩
    have hxf : 1 ≤ x ∧ x ≤ f := hr.2 x (List.mem_cons_self x xs)
    simp only [rollSucc] at hs
    cases h : rollSucc f xs with
    | some ys =>
      rw [h] at hs
      simp only [Option.some.injEq] at hs
      subst hs
      obtain ⟨hcan, hlen, hlb⟩ := ih hxs h
      refine ⟨⟨List.sorted_cons.mpr ⟨hlb x hxle, hcan.1⟩, ?_⟩, by simp [hlen], ?_⟩
      · intro y hy
        rcases List.mem_cons.mp hy with h1 | h1
        · exact h1 ▸ hxf
        · exact hcan.2 y h1
      · intro l hl y hy
        rcases List.mem_cons.mp hy with h1 | h1
        · exact h1 ▸ hl x (List.mem_cons_self x xs)
        · exact hlb l (fun e he => hl e (List.mem_cons_of_mem _ he)) y h1
    | none =>
      rw [h] at hs
      by_cases hx : x = f
      · simp [if_pos hx] at hs
      · rw [if_neg hx] at hs
        simp only [Option.some.injEq] at hs
        subst hs
        have hxlt : x < f := lt_of_le_of_ne hxf.2 hx
        constructor
        · refine ⟨List.sorted_cons.mpr ⟨?_, sorted_replicate _ _⟩, ?_⟩
          · intro y hy
            rw [List.eq_of_mem_replicate hy]
          · intro y hy
            rcases List.mem_cons.mp hy with h1 | h1
            · exact h1 ▸ ⟨le_trans hxf.1 (Nat.le_succ x), hxlt⟩
            · rw [List.eq_of_mem_replicate h1]
              exact ⟨le_trans hxf.1 (Nat.le_succ x), hxlt⟩
        refine ⟨by simp, ?_⟩
        · intro l hl y hy
          have hlx : l ≤ x := hl x (List.mem_cons_self x xs)
          rcases List.mem_cons.mp hy with h1 | h1
          · exact h1 ▸ le_trans hlx (Nat.le_succ x)
          · rw [List.eq_of_mem_replicate h1]
            exact le_trans hlx (Nat.le_succ x)

theorem rollSucc_lex {f : ℕ} :
    ∀ {r s : Roll}, rollSucc f r = some s → List.Lex (· < ·) r s := by
  intro r
  induction r with
  | nil => intro s hs; simp [rollSucc] at hs
  | cons x xs ih =>
    intro s hs
    simp only [rollSucc] at hs
    cases h : rollSucc f xs with
    | some ys =>
      rw [h] at hs
      simp only [Option.some.injEq] at hs
      subst hs
      exact List.Lex.cons (ih h)
    | none =>
      rw [h] at hs
      by_cases hx : x = f
      · simp [if_pos hx] at hs
      · rw [if_neg hx] at hs
        simp only [Option.some.injEq] at hs
        subst hs
        exact List.Lex.rel (Nat.lt_succ_self x)

/-! ### Lexicographic order lemmas for rolls -/

theorem lexLt_trans : ∀ {a b c : Roll},
    List.Lex (· < ·) a b → List.Lex (· < ·) b c → List.Lex (· < ·) a c := by
  intro a b c h1
  induction h1 generalizing c with
  | nil =>
    intro h2
    cases h2 with
    | cons _ => exact List.Lex.nil
    | rel _ => exact List.Lex.nil
  | @cons x as bs h ih =>
    intro h2
    cases h2 with
    | cons h3 => exact List.Lex.cons (ih h3)
    | rel h3 => exact List.Lex.rel h3
  | @rel x as y bs h =>
    intro h2
    cases h2 with
    | cons h3 => exact List.Lex.rel h
    | rel h3 => exact List.Lex.rel (lt_trans h h3)

theorem lexLt_irrefl : ∀ (a : Roll), ¬ List.Lex (· < ·) a a := by
  intro a
  induction a with
  | nil => intro h; cases h
  | cons x xs ih =>
    intro h
    cases h with
    | cons h1 => exact ih h1
    | rel h1 => exact lt_irrefl x h1

theorem not_lex_of_max {f : ℕ} :
    ∀ {xs ts : Roll}, (∀ e ∈ xs, e = f) → (∀ e ∈ ts, e ≤ f) →
      xs.length = ts.length → ¬ List.Lex (· < ·) xs ts := by
  intro xs ts hxs hts hlen hlex
  induction hlex with
  | nil => simp at hlen
  | @cons x as bs h ih =>
    exact ih (fun e he => hxs e (List.mem_cons_of_mem _ he))
      (fun e he => hts e (List.mem_cons_of_mem _ he)) (by simpa using hlen)
  | @rel x as y bs h =>
    have h1 : x = f := hxs x (List.mem_cons_self _ _)
    have h2 : y ≤ f := hts y (List.mem_cons_self _ _)
    omega

theorem replicate_lex_le {v : ℕ} :
    ∀ (ts : Roll), (∀ e ∈ ts, v ≤ e) →
      List.Lex (· < ·) (List.replicate ts.length v) ts ∨ List.replicate ts.length v = ts := by
  intro ts
  induction ts with
  | nil => intro _; right; rfl
  | cons y ys ih =>
    intro h
    have hy : v ≤ y := h y (List.mem_cons_self _ _)
    rcases lt_or_eq_of_le hy with h1 | h1
    · left
      simpa [List.replicate_succ] using List.Lex.rel h1
    · subst h1
      rcases ih (fun e he => h e (List.mem_cons_of_mem _ he)) with h2 | h2
      · left
        simpa [List.replicate_succ] using List.Lex.cons h2
      · right
        simp [List.replicate_succ, h2]

theorem rollSucc_least {f : ℕ} :
    ∀ {r t s : Roll}, Canonical f r → Canonical f t → r.length = t.length →
      List.Lex (· < ·) r t → rollSucc f r = some s →
      List.Lex (· < ·) s t ∨ s = t := by
  intro r
  induction r with
  | nil => intro t s _ _ _ _ hs; simp [rollSucc] at hs
  | cons x xs ih =>
    intro t s hr ht hlen hlex hs
    have hxs : Canonical f xs := ⟨(List.sorted_cons.mp hr.1).2,
      fun y hy => hr.2 y (List.mem_cons_of_mem _ hy)⟩
    simp only [rollSucc] at hs
    cases hlex with
    | @cons _ _ bs hlex2 =>
      -- t = x :: bs
      have hbs : Canonical f bs := ⟨(List.sorted_cons.mp ht.1).2,
        fun y hy => ht.2 y (List.mem_cons_of_mem _ hy)⟩
      cases h : rollSucc f xs with
      | some ys =>
        rw [h] at hs
        simp only [Option.some.injEq] at hs
        subst hs
        rcases ih hxs hbs (by simpa using hlen) hlex2 h with h1 | h1
        · exact Or.inl (List.Lex.cons h1)
        · exact Or.inr (by rw [h1])
      | none =>
        exact absurd hlex2 (not_lex_of_max ((rollSucc_eq_none_iff f xs).mp h)
          (fun e he => (hbs.2 e he).2) (by simpa using hlen))
    | @rel _ _ y bs hxy =>
      -- t = y :: bs with x < y
      cases h : rollSucc f xs with
      | some ys =>
        rw [h] at hs
        simp only [Option.some.injEq] at hs
        subst hs
        exact Or.inl (List.Lex.rel hxy)
      | none =>
        rw [h] at hs
        by_cases hx : x = f
        · simp [if_pos hx] at hs
        · rw [if_neg hx] at hs
          simp only [Option.some.injEq] at hs
          subst hs
          rcases lt_or_eq_of_le (Nat.succ_le_of_lt hxy) with h1 | h1
          · exact Or.inl (List.Lex.rel h1)
          · -- x + 1 = y: compare the replicate tail with bs
            have hy : y = x + 1 := by omega
            subst hy
            have hlen2 : xs.length = bs.length := by simpa using hlen
            have hbsge : ∀ e ∈ bs, x + 1 ≤ e := by
              intro e he
              exact (List.sorted_cons.mp ht.1).1 e he
            rcases replicate_lex_le bs hbsge with h2 | h2
            · rw [← hlen2] at h2
              exact Or.inl (List.Lex.cons h2)
            · rw [← hlen2] at h2
              exact Or.inr (by rw [h2])

/-! ### A numeric rank certifying that the odometer fuel suffices -/

/-- Rank of a roll read as a base `f` numeral with digits shifted down by
one.  Strictly monotone along the enumeration, which bounds its length. -/
def lexRank (f : ℕ) (r : Roll) : ℕ := r.foldl (fun acc x => acc * f + (x - 1)) 0

theorem lexRank_aux_lt {f : ℕ} (hf : 1 ≤ f) :
    ∀ (r : Roll) (acc : ℕ), (∀ x ∈ r, x ≤ f) →
      List.foldl (fun a x => a * f + (x - 1)) acc r < (acc + 1) * f ^ r.length := by
  intro r
  induction r with
  | nil => intro acc _; simp only [List.foldl_nil, List.length_nil, pow_zero, Nat.mul_one]; exact Nat.lt_succ_self acc
  | cons x xs ih =>
    intro acc hb
    have hx : x ≤ f := hb x (List.mem_cons_self _ _)
    have h1 := ih (acc * f + (x - 1)) (fun y hy => hb y (List.mem_cons_of_mem _ hy))
    have h2 : acc * f + (x - 1) + 1 ≤ (acc + 1) * f := by
      have h3 : x - 1 + 1 ≤ f := by omega
      calc acc * f + (x - 1) + 1 = acc * f + (x - 1 + 1) := by omega
        _ ≤ acc * f + f := Nat.add_le_add_left h3 _
        _ = (acc + 1) * f := (Nat.succ_mul acc f).symm
    calc List.foldl (fun a x => a * f + (x - 1)) (acc * f + (x - 1)) xs
        < (acc * f + (x - 1) + 1) * f ^ xs.length := h1
      _ ≤ ((acc + 1) * f) * f ^ xs.length := Nat.mul_le_mul_right _ h2
      _ = (acc + 1) * f ^ (x :: xs).length := by
          rw [List.length_cons, pow_succ]
          ring

theorem lexRank_aux_ge {f : ℕ} :
    ∀ (r : Roll) (acc : ℕ), acc * f ^ r.length ≤ List.foldl (fun a x => a * f + (x - 1)) acc r := by
  intro r
  induction r with
  | nil => intro acc; simp
  | cons x xs ih =>
    intro acc
    have h1 := ih (acc * f + (x - 1))
    calc acc * f ^ (x :: xs).length = (acc * f) * f ^ xs.length := by
          rw [List.length_cons, pow_succ]; ring
      _ ≤ (acc * f + (x - 1)) * f ^ xs.length := Nat.mul_le_mul_right _ (Nat.le_add_right _ _)
      _ ≤ _ := h1

theorem lexRank_lt_of_lex {f : ℕ} (hf : 1 ≤ f) :
    ∀ {r t : Roll}, List.Lex (· < ·) r t → r.length = t.length →
      (∀ x ∈ r, 1 ≤ x ∧ x ≤ f) → (∀ x ∈ t, 1 ≤ x ∧ x ≤ f) →
      ∀ acc : ℕ, List.foldl (fun a x => a * f + (x - 1)) acc r <
        List.foldl (fun a x => a * f + (x - 1)) acc t := by
  intro r t hlex
  induction hlex with
  | nil => intro hlen; simp at hlen
  | @cons x as bs h ih =>
    intro hlen hr ht acc
    exact ih (by simp at hlen; exact hlen) (fun y hy => hr y (List.mem_cons_of_mem _ hy))
      (fun y hy => ht y (List.mem_cons_of_mem _ hy)) (acc * f + (x - 1))
  | @rel x as y bs h =>
    intro hlen hr ht acc
    have hx : 1 ≤ x ∧ x ≤ f := hr x (List.mem_cons_self _ _)
    have hlen2 : as.length = bs.length := by simpa using hlen
    have h1 : List.foldl (fun a x => a * f + (x - 1)) (acc * f + (x - 1)) as <
        (acc * f + (x - 1) + 1) * f ^ as.length :=
      lexRank_aux_lt hf as _ (fun z hz => (hr z (List.mem_cons_of_mem _ hz)).2)
    have h2 : (acc * f + (y - 1)) * f ^ bs.length ≤
        List.foldl (fun a x => a * f + (x - 1)) (acc * f + (y - 1)) bs :=
      lexRank_aux_ge bs _
    have h3 : acc * f + (x - 1) + 1 ≤ acc * f + (y - 1) := by omega
    simp only [List.foldl_cons]
    calc List.foldl (fun a x => a * f + (x - 1)) (acc * f + (x - 1)) as
        < (acc * f + (x - 1) + 1) * f ^ as.length := h1
      _ ≤ (acc * f + (y - 1)) * f ^ bs.length := by
          rw [hlen2]; exact Nat.mul_le_mul_right _ h3
      _ ≤ _ := h2

/-! ### Soundness, ordering and completeness of the odometer loop -/

theorem mem_iterFrom_sound {f : ℕ} :
    ∀ (fuel : ℕ) {r u : Roll}, Canonical f r → u ∈ iterFrom f fuel r →
      Canonical f u ∧ u.length = r.length ∧ (u = r ∨ List.Lex (· < ·) r u) := by
  intro fuel
  induction fuel with
  | zero => intro r u _ hu; simp [iterFrom] at hu
  | succ fuel ih =>
    intro r u hr hu
    rw [iterFrom] at hu
    rcases List.mem_cons.mp hu with h1 | h1
    · exact ⟨h1 ▸ hr, by rw [h1], Or.inl h1⟩
    · cases h : rollSucc f r with
      | none => rw [h] at h1; simp at h1
      | some s =>
        rw [h] at h1
        obtain ⟨hcan, hlen, hlb⟩ := rollSucc_spec hr h
        obtain ⟨hcu, hlu, hor⟩ := ih hcan h1
        refine ⟨hcu, by rw [hlu, hlen], Or.inr ?_⟩
        rcases hor with h2 | h2
        · exact h2 ▸ rollSucc_lex h
        · exact lexLt_trans (rollSucc_lex h) h2

theorem pairwise_iterFrom {f : ℕ} :
    ∀ (fuel : ℕ) {r : Roll}, Canonical f r →
      List.Pairwise (List.Lex (· < ·)) (iterFrom f fuel r) := by
  intro fuel
  induction fuel with
  | zero => intro r _; simp [iterFrom]
  | succ fuel ih =>
    intro r hr
    rw [iterFrom]
    cases h : rollSucc f r with
    | none => simp
    | some s =>
      obtain ⟨hcan, _, _⟩ := rollSucc_spec hr h
      refine List.pairwise_cons.mpr ⟨?_, ih hcan⟩
      intro u hu
      obtain ⟨_, _, hor⟩ := mem_iterFrom_sound fuel hcan hu
      rcases hor with h2 | h2
      · exact h2 ▸ rollSucc_lex h
      · exact lexLt_trans (rollSucc_lex h) h2

theorem mem_iterFrom_complete {f : ℕ} (hf : 1 ≤ f) :
    ∀ (fuel : ℕ) {r t : Roll}, Canonical f r → Canonical f t → r.length = t.length →
      (r = t ∨ List.Lex (· < ·) r t) → f ^ r.length ≤ fuel + lexRank f r →
      t ∈ iterFrom f fuel r := by
  intro fuel
  induction fuel with
  | zero =>
    intro r t hr _ _ _ hfuel
    have h1 : lexRank f r < f ^ r.length := by
      have := lexRank_aux_lt hf r 0 (fun x hx => (hr.2 x hx).2)
      simpa [lexRank] using this
    rw [Nat.zero_add] at hfuel
    exact absurd hfuel (by rw [lexRank] at h1 ⊢; omega)
  | succ fuel ih =>
    intro r t hr ht hlen hle hfuel
    rw [iterFrom]
    rcases hle with h1 | h1
    · exact h1 ▸ List.mem_cons_self _ _
    · cases h : rollSucc f r with
      | none =>
        exact absurd h1 (not_lex_of_max ((rollSucc_eq_none_iff f r).mp h)
          (fun e he => (ht.2 e he).2) hlen)
      | some s =>
        obtain ⟨hcan, hlens, _⟩ := rollSucc_spec hr h
        have hrank : lexRank f r < lexRank f s :=
          lexRank_lt_of_lex hf (rollSucc_lex h) hlens.symm hr.2 hcan.2 0
        have hle2 : s = t ∨ List.Lex (· < ·) s t := by
          rcases rollSucc_least hr ht hlen h1 h with h2 | h2
          · exact Or.inr h2
          · exact Or.inl h2
        refine List.mem_cons_of_mem _ ?_
        exact ih hcan ht (by rw [hlens, hlen]) hle2
          (by rw [hlens]; omega)

/-! ### The list of canonical rolls, counted -/

/-- All ascending tuples of a given length whose entries lie in `[lo, f]`,
listed by choice of least entry.  Reference list for counting the output of
the enumerator. -/
def sortedTuples (f : ℕ) : ℕ → ℕ → List Roll
  | _, 0 => [[]]
  | lo, n + 1 =>
    (List.range' lo (f + 1 - lo)).flatMap
      (fun x => (sortedTuples f x n).map (fun t => x :: t))

theorem mem_sortedTuples {f : ℕ} :
    ∀ (n lo : ℕ) (t : Roll),
      t ∈ sortedTuples f lo n ↔
        (t.length = n ∧ List.Sorted (· ≤ ·) t ∧ ∀ x ∈ t, lo ≤ x ∧ x ≤ f) := by
  intro n
  induction n with
  | zero =>
    intro lo t
    constructor
    · intro h
      simp [sortedTuples] at h
      simp [h]
    · intro ⟨h1, _, _⟩
      simp [sortedTuples, List.length_eq_zero.mp h1]
  | succ n ih =>
    intro lo t
    constructor
    · intro h
      simp only [sortedTuples, List.mem_flatMap, List.mem_map] at h
      obtain ⟨x, hx, t2, ht2, rfl⟩ := h
      have hx2 : lo ≤ x ∧ x < lo + (f + 1 - lo) := List.mem_range'_1.mp hx
      obtain ⟨hlen, hsort, hb⟩ := (ih x t2).mp ht2
      refine ⟨by simp [hlen], List.sorted_cons.mpr ⟨fun b hb2 => (hb b hb2).1, hsort⟩, ?_⟩
      intro y hy
      rcases List.mem_cons.mp hy with h1 | h1
      · omega
      · have := hb y h1
        omega
    · intro ⟨h1, h2, h3⟩
      cases t with
      | nil => simp at h1
      | cons y t2 =>
        simp only [sortedTuples, List.mem_flatMap, List.mem_map]
        have hy : lo ≤ y ∧ y ≤ f := h3 y (List.mem_cons_self _ _)
        refine ⟨y, List.mem_range'_1.mpr (by omega), t2, ?_, rfl⟩
        refine (ih y t2).mpr ⟨by simpa using h1, (List.sorted_cons.mp h2).2, ?_⟩
        intro z hz
        exact ⟨(List.sorted_cons.mp h2).1 z hz, (h3 z (List.mem_cons_of_mem _ hz)).2⟩

theorem nodup_sortedTuples {f : ℕ} :
    ∀ (n lo : ℕ), (sortedTuples f lo n).Nodup := by
  intro n
  induction n with
  | zero => intro lo; simp [sortedTuples]
  | succ n ih =>
    intro lo
    rw [sortedTuples]
    refine List.nodup_flatMap.mpr ⟨?_, ?_⟩
    · intro x _
      exact (ih x).map (fun a b hab => by simpa using hab)
    · have hnodup : (List.range' lo (f + 1 - lo)).Nodup := by
        apply List.nodup_range'
        exact Nat.one_pos
      refine hnodup.imp ?_
      intro a b hab
      simp only [Function.onFun, List.disjoint_left]
      intro t hta htb
      obtain ⟨t2, _, rfl⟩ := List.mem_map.mp hta
      obtain ⟨t3, _, he⟩ := List.mem_map.mp htb
      have h5 : b = a ∧ t3 = t2 := by simpa using he
      exact hab h5.1.symm

theorem sum_choose_range' (n : ℕ) :
    ∀ (d lo f : ℕ), f + 1 = lo + d →
      ((List.range' lo d).map (fun x => Nat.choose (f - x + n) n)).sum =
        Nat.choose (d + n) (n + 1) := by
  intro d
  induction d with
  | zero =>
    intro lo f _
    simp [Nat.choose_eq_zero_of_lt (Nat.lt_succ_self n)]
  | succ d ih =>
    intro lo f hf
    rw [List.range'_succ, List.map_cons, List.sum_cons, ih (lo + 1) f (by omega)]
    have h1 : f - lo = d := by omega
    rw [h1, Nat.add_comm d 1, Nat.add_assoc, Nat.one_add (d + n)]
    exact (Nat.choose_succ_succ (d + n) n).symm

theorem length_sortedTuples {f : ℕ} :
    ∀ (n lo : ℕ), lo ≤ f + 1 →
      (sortedTuples f lo n).length = Nat.choose ((f + 1 - lo) + n - 1) n := by
  intro n
  induction n with
  | zero => intro lo _; simp [sortedTuples]
  | succ n ih =>
    intro lo hlo
    rw [sortedTuples, List.length_flatMap]
    have hmap : List.map (List.length ∘ fun x => (sortedTuples f x n).map (fun t => x :: t))
        (List.range' lo (f + 1 - lo)) =
        List.map (fun x => Nat.choose (f - x + n) n) (List.range' lo (f + 1 - lo)) := by
      apply List.map_congr_left
      intro x hx
      have hx2 : lo ≤ x ∧ x < lo + (f + 1 - lo) := List.mem_range'_1.mp hx
      have hxf : x ≤ f := by omega
      simp only [Function.comp_apply, List.length_map]
      rw [ih x (by omega)]
      congr 1
      omega
    rw [hmap]
    by_cases hcase : lo ≤ f
    · rw [sum_choose_range' n (f + 1 - lo) lo f (by omega)]
      have h6 : (f + 1 - lo) + (n + 1) - 1 = (f + 1 - lo) + n := by omega
      rw [h6]
    · have hd : f + 1 - lo = 0 := by omega
      rw [hd]
      simp only [List.range'_zero, List.map_nil, List.sum_nil]
      have : (0 + (n + 1) - 1) = n := by omega
      rw [this]
      exact (Nat.choose_eq_zero_of_lt (Nat.lt_succ_self n)).symm

/-! ### Characterization of the roll enumerator -/

theorem canonical_replicate_one {f n : ℕ} (hf : 1 ≤ f) :
    Canonical f (List.replicate n 1) := by
  refine ⟨sorted_replicate n 1, ?_⟩
  intro x hx
  rw [List.eq_of_mem_replicate hx]
  exact ⟨le_rfl, hf⟩

theorem mem_iter_possible_rolls {n f : ℕ} (hf : 1 ≤ f) (t : Roll) :
    t ∈ iter_possible_rolls n f ↔ (t.length = n ∧ Canonical f t) := by
  by_cases hn : n = 0
  · subst hn
    rw [iter_possible_rolls, if_pos rfl]
    constructor
    · intro h
      rcases List.mem_singleton.mp h with rfl
      exact ⟨rfl, canonical_nil f⟩
    · intro ⟨h1, _⟩
      simp [List.length_eq_zero.mp h1]
  · rw [iter_possible_rolls, if_neg hn]
    constructor
    · intro h
      obtain ⟨hc, hl, _⟩ := mem_iterFrom_sound _ (canonical_replicate_one hf) h
      exact ⟨by simpa using hl, hc⟩
    · intro ⟨h1, h2⟩
      have hle : List.replicate n 1 = t ∨ List.Lex (· < ·) (List.replicate n 1) t := by
        rcases replicate_lex_le t (fun e he => (h2.2 e he).1) with h3 | h3
        · exact Or.inr (h1 ▸ h3)
        · exact Or.inl (h1 ▸ h3)
      exact mem_iterFrom_complete hf _ (canonical_replicate_one hf) h2
        (by simp [h1]) hle (by simp [Nat.le_add_right])

theorem pairwise_iter_possible_rolls {n f : ℕ} (hf : 1 ≤ f) :
    List.Pairwise (List.Lex (· < ·)) (iter_possible_rolls n f) := by
  by_cases hn : n = 0
  · subst hn
    rw [iter_possible_rolls, if_pos rfl]
    simp
  · rw [iter_possible_rolls, if_neg hn]
    exact pairwise_iterFrom _ (canonical_replicate_one hf)

theorem nodup_iter_possible_rolls {n f : ℕ} (hf : 1 ≤ f) :
    (iter_possible_rolls n f).Nodup := by
  have h : List.Pairwise (List.Lex (· < ·)) (iter_possible_rolls n f) :=
    pairwise_iter_possible_rolls hf
  refine h.imp ?_
  intro a b hab he
  rw [he] at hab
  exact lexLt_irrefl b hab

theorem length_iter_possible_rolls {n f : ℕ} (hf : 1 ≤ f) :
    (iter_possible_rolls n f).length = Nat.choose (f + n - 1) n := by
  have hperm : (iter_possible_rolls n f).Perm (sortedTuples f 1 n) := by
    rw [List.perm_ext_iff_of_nodup (nodup_iter_possible_rolls hf) (nodup_sortedTuples n 1)]
    intro t
    rw [mem_iter_possible_rolls hf, mem_sortedTuples]
    unfold Canonical
    constructor
    · intro ⟨h1, h2, h3⟩; exact ⟨h1, h2, h3⟩
    · intro ⟨h1, h2, h3⟩; exact ⟨h1, h2, h3⟩
  rw [hperm.length_eq, length_sortedTuples n 1 (by omega)]
  congr 1

/-! ### Sub-multisets of a canonical roll are its sublists -/

theorem sublist_of_msub_of_sorted {k r : Roll} (hmsub : (k : Multiset ℕ) ≤ (r : Multiset ℕ))
    (hk : List.Sorted (· ≤ ·) k) (hr : List.Sorted (· ≤ ·) r) : List.Sublist k r :=
  List.sublist_of_subperm_of_sorted (Multiset.coe_le.mp hmsub) hk hr

theorem msub_of_sublist {k r : Roll} (h : List.Sublist k r) :
    (k : Multiset ℕ) ≤ (r : Multiset ℕ) :=
  Multiset.coe_le.mpr h.subperm

theorem sortRoll_eq_iff_perm {l key : Roll} (hkey : List.Sorted (· ≤ ·) key) :
    sortRoll l = key ↔ l.Perm key := by
  constructor
  · intro h
    exact h ▸ (sortRoll_perm l).symm
  · intro h
    exact List.eq_of_perm_of_sorted ((sortRoll_perm l).trans h) (sortRoll_sorted l) hkey

theorem sublist_of_append_perm {kept other key : Roll} (hkey : List.Sorted (· ≤ ·) key)
    (hkept : List.Sorted (· ≤ ·) kept) (hperm : (kept ++ other).Perm key) :
    List.Sublist kept key := by
  apply sublist_of_msub_of_sorted _ hkept hkey
  have h1 : (kept : Multiset ℕ) + (other : Multiset ℕ) = (key : Multiset ℕ) := by
    have h2 := Multiset.coe_eq_coe.mpr hperm
    simpa using h2
  calc (kept : Multiset ℕ) ≤ (kept : Multiset ℕ) + (other : Multiset ℕ) := le_add_right le_rfl
    _ = _ := h1

/-- Every sublist of a canonical roll extends to the full roll through a
canonical completion, the witness the brute-force resolver enumerates. -/
theorem exists_completion {f : ℕ} {kept key : Roll} (hkey : Canonical f key)
    (hsub : List.Sublist kept key) :
    ∃ other : Roll, Canonical f other ∧ other.length = key.length - kept.length ∧
      sortRoll (kept ++ other) = key := by
  refine ⟨key.diff kept, ?_, ?_, ?_⟩
  · exact hkey.sublist (List.diff_sublist key kept)
  · have h1 : (kept ++ key.diff kept).Perm key := by
      rw [← Multiset.coe_eq_coe, ← Multiset.coe_add, ← Multiset.coe_sub]
      rw [add_comm]
      exact tsub_add_cancel_of_le (msub_of_sublist hsub)
    have h2 := h1.length_eq
    simp only [List.length_append] at h2
    omega
  · rw [sortRoll_eq_iff_perm hkey.1]
    rw [← Multiset.coe_eq_coe, ← Multiset.coe_add, ← Multiset.coe_sub]
    rw [add_comm]
    exact tsub_add_cancel_of_le (msub_of_sublist hsub)

/-- Every proper sublist of a canonical roll is a sublist of some immediate
predecessor in the kept-subset lattice: the roll with one die removed. -/
theorem exists_lattice_pred {key k : Roll} (hkey : List.Sorted (· ≤ ·) key)
    (hsub : List.Sublist k key) (hne : k ≠ key) :
    ∃ a : ℕ, a ∈ key ∧ List.Sublist k (key.erase a) ∧
      sortRoll (key.erase a ++ [a]) = key ∧ (key.erase a).length + 1 = key.length := by
  have hlt : (k : Multiset ℕ) < (key : Multiset ℕ) := by
    refine lt_of_le_of_ne (msub_of_sublist hsub) ?_
    intro he
    exact hne (List.eq_of_perm_of_sorted (Multiset.coe_eq_coe.mp he)
      (hkey.sublist hsub) hkey)
  obtain ⟨a, ha⟩ := Multiset.lt_iff_cons_le.mp hlt
  have hamem : a ∈ key := by
    have := Multiset.mem_of_le ha (Multiset.mem_cons_self a _)
    simpa using this
  have herase : ((key.erase a : Roll) : Multiset ℕ) = (key : Multiset ℕ).erase a :=
    (Multiset.coe_erase key a).symm
  have hk_le : (k : Multiset ℕ) ≤ ((key.erase a : Roll) : Multiset ℕ) := by
    rw [herase]
    obtain ⟨u, hu⟩ := Multiset.le_iff_exists_add.mp ha
    rw [hu, Multiset.cons_add, Multiset.erase_cons_head]
    exact le_add_right le_rfl
  have hsorted_erase : List.Sorted (· ≤ ·) (key.erase a) :=
    hkey.sublist (List.erase_sublist a key)
  refine ⟨a, hamem, sublist_of_msub_of_sorted hk_le (hkey.sublist hsub) hsorted_erase, ?_, ?_⟩
  · rw [sortRoll_eq_iff_perm hkey]
    rw [← Multiset.coe_eq_coe, ← Multiset.coe_add]
    rw [herase]
    have h1 : ((key : Multiset ℕ).erase a) + ({a} : Multiset ℕ) = (key : Multiset ℕ) := by
      rw [add_comm]
      have h2 : ({a} : Multiset ℕ) + (key : Multiset ℕ).erase a = a ::ₘ (key : Multiset ℕ).erase a := by
        simp
      rw [h2, Multiset.cons_erase (by simpa using hamem)]
    exact_mod_cast h1
  · rw [List.length_erase_of_mem hamem]
    have : 1 ≤ key.length := List.length_pos.mpr (List.ne_nil_of_mem hamem)
    omega

/-! ### Maximum over sublists -/

theorem le_foldl_max (b : ℚ) (l : List ℚ) : b ≤ l.foldl max b := by
  induction l generalizing b with
  | nil => exact le_rfl
  | cons x xs ih => exact le_trans (le_max_left b x) (ih (max b x))

theorem le_foldl_max_of_mem {x : ℚ} {l : List ℚ} (h : x ∈ l) (b : ℚ) : x ≤ l.foldl max b := by
  induction l generalizing b with
  | nil => simp at h
  | cons y ys ih =>
    rcases List.mem_cons.mp h with h1 | h1
    · subst h1
      exact le_trans (le_max_right b x) (le_foldl_max _ ys)
    · exact ih h1 (max b y)

theorem foldl_max_le {B : ℚ} {l : List ℚ} {b : ℚ} (hb : b ≤ B) (hl : ∀ x ∈ l, x ≤ B) :
    l.foldl max b ≤ B := by
  induction l generalizing b with
  | nil => exact hb
  | cons x xs ih =>
    exact ih (max_le hb (hl x (List.mem_cons_self _ _)))
      (fun y hy => hl y (List.mem_cons_of_mem _ hy))

theorem foldl_max_eq_or_mem (b : ℚ) (l : List ℚ) : l.foldl max b = b ∨ l.foldl max b ∈ l := by
  induction l generalizing b with
  | nil => exact Or.inl rfl
  | cons x xs ih =>
    rcases ih (max b x) with h1 | h1
    · rcases max_cases b x with ⟨h2, _⟩ | ⟨h2, _⟩
      · exact Or.inl (by rw [List.foldl_cons, h1, h2])
      · exact Or.inr (by rw [List.foldl_cons, h1, h2]; exact List.mem_cons_self _ _)
    · exact Or.inr (List.mem_cons_of_mem _ h1)

theorem maxOverSubrolls_base_le (c : Roll → ℚ) (r : Roll) :
    c r ≤ maxOverSubrolls c r :=
  le_foldl_max _ _

theorem maxOverSubrolls_le_of_sublist (c : Roll → ℚ) {k r : Roll} (h : List.Sublist k r) :
    c k ≤ maxOverSubrolls c r :=
  le_foldl_max_of_mem (List.mem_map.mpr ⟨k, List.mem_sublists.mpr h, rfl⟩) _

theorem maxOverSubrolls_le {c : Roll → ℚ} {r : Roll} {B : ℚ}
    (hr : c r ≤ B) (h : ∀ k, List.Sublist k r → c k ≤ B) :
    maxOverSubrolls c r ≤ B := by
  refine foldl_max_le hr ?_
  intro x hx
  obtain ⟨k, hk, rfl⟩ := List.mem_map.mp hx
  exact h k (List.mem_sublists.mp hk)

theorem maxOverSubrolls_attained (c : Roll → ℚ) (r : Roll) :
    ∃ k : Roll, List.Sublist k r ∧ maxOverSubrolls c r = c k := by
  rcases foldl_max_eq_or_mem (c r) (r.sublists.map c) with h1 | h1
  · exact ⟨r, List.Sublist.refl r, h1⟩
  · obtain ⟨k, hk, he⟩ := List.mem_map.mp h1
    exact ⟨k, List.mem_sublists.mp hk, he.symm⟩

theorem maxOverSubrolls_congr {c c' : Roll → ℚ} {r : Roll}
    (h : ∀ k, List.Sublist k r → c k = c' k) :
    maxOverSubrolls c r = maxOverSubrolls c' r := by
  unfold maxOverSubrolls
  rw [h r (List.Sublist.refl r)]
  congr 1
  apply List.map_congr_left
  intro k hk
  exact h k (List.mem_sublists.mp hk)

theorem maxOverSubrolls_mono {c c' : Roll → ℚ} {r : Roll}
    (h : ∀ k, List.Sublist k r → c k ≤ c' k) :
    maxOverSubrolls c r ≤ maxOverSubrolls c' r := by
  obtain ⟨k, hk, he⟩ := maxOverSubrolls_attained c r
  rw [he]
  exact le_trans (h k hk) (maxOverSubrolls_le_of_sublist c' hk)

/-! ### Loop-position bookkeeping helpers -/

theorem not_mem_of_nodup_decomp {α : Type} {l d r : List α} {a : α}
    (h : l.Nodup) (he : l = d ++ a :: r) : a ∉ d := by
  subst he
  obtain ⟨_, _, hdisj⟩ := List.nodup_append.mp h
  intro ha
  exact hdisj ha (List.mem_cons_self _ _)

theorem mem_of_decomp {α : Type} {l d r : List α} {a : α} (he : l = d ++ a :: r) : a ∈ l := by
  subst he
  exact List.mem_append_right _ (List.mem_cons_self _ _)

theorem reverse_range_decomp {n : ℕ} {d r : List ℕ} {a : ℕ}
    (h : (List.range n).reverse = d ++ a :: r) : a = n - 1 - d.length ∧ d.length < n := by
  have hlen : n = d.length + 1 + r.length := by
    have h1 := congrArg List.length h
    simp at h1
    omega
  have h2 : ((List.range n).reverse)[d.length]? = some a := by
    rw [h, List.getElem?_append_right (le_refl d.length)]
    simp
  rw [List.getElem?_reverse (by simp; omega)] at h2
  simp only [List.length_range] at h2
  rw [List.getElem?_range (by omega)] at h2
  have h3 : n - 1 - d.length = a := by
    simpa using h2
  exact ⟨h3.symm, by omega⟩

/-! ### Characterization of the conditional value computer -/

theorem getVal_cvk_inner {nd nf a dlen : ℕ} (hf : 1 ≤ nf) (next : ValTable)
    (htot : ∀ r : Roll, Canonical nf r → r.length = nd → (getVal next r).isSome = true)
    (ha : a = nd - 1 - dlen) (hdlt : dlen < nd) (acc : ValTable)
    (hacc : ∀ k : Roll, getVal acc k =
      if Canonical nf k ∧ k.length < nd ∧ nd - 1 - k.length < dlen
      then some (vgkFun nf (fun r => (getVal next r).getD 0) (nd - k.length) k)
      else getVal next k) :
    ∀ k : Roll,
      getVal ((iter_possible_rolls a nf).foldl
        (fun acc2 kept =>
          setVal acc2 kept
            ((((List.range nf).map
                (fun i => (getVal acc2 (sortRoll (kept ++ [i + 1]))).getD 0)).sum) / (nf : ℚ)))
        acc) k =
      if Canonical nf k ∧ k.length < nd ∧ nd - 1 - k.length < dlen + 1
      then some (vgkFun nf (fun r => (getVal next r).getD 0) (nd - k.length) k)
      else getVal next k := by
  set cF : Roll → ℚ := fun r => (getVal next r).getD 0 with hcF
  have hmain := foldl_inv
    (fun acc2 kept =>
      setVal acc2 kept
        ((((List.range nf).map
            (fun i => (getVal acc2 (sortRoll (kept ++ [i + 1]))).getD 0)).sum) / (nf : ℚ)))
    (fun processed acc2 => ∀ k : Roll, getVal acc2 k =
      if Canonical nf k ∧ k.length < nd ∧
          (nd - 1 - k.length < dlen ∨ (k.length = a ∧ k ∈ processed))
      then some (vgkFun nf cF (nd - k.length) k)
      else getVal next k)
    (iter_possible_rolls a nf) []
    acc
    (by
      intro k
      rw [hacc k]
      by_cases h1 : Canonical nf k ∧ k.length < nd ∧ nd - 1 - k.length < dlen
      · rw [if_pos h1, if_pos ⟨h1.1, h1.2.1, Or.inl h1.2.2⟩]
      · rw [if_neg h1, if_neg (by
          intro ⟨h2, h3, h4⟩
          rcases h4 with h4 | h4
          · exact h1 ⟨h2, h3, h4⟩
          · simp at h4)])
    ?_
  · intro k
    rw [List.nil_append] at hmain
    rw [hmain k]
    by_cases h1 : Canonical nf k ∧ k.length < nd
    · have hiff : (nd - 1 - k.length < dlen ∨ (k.length = a ∧ k ∈ iter_possible_rolls a nf)) ↔
          nd - 1 - k.length < dlen + 1 := by
        constructor
        · intro h2
          rcases h2 with h2 | h2
          · omega
          · omega
        · intro h2
          by_cases h3 : nd - 1 - k.length < dlen
          · exact Or.inl h3
          · right
            have h4 : k.length = a := by omega
            exact ⟨h4, (mem_iter_possible_rolls hf k).mpr ⟨h4, h1.1⟩⟩
      by_cases h2 : nd - 1 - k.length < dlen + 1
      · rw [if_pos ⟨h1.1, h1.2, hiff.mpr h2⟩, if_pos ⟨h1.1, h1.2, h2⟩]
      · rw [if_neg (by
            intro ⟨h3, h4, h5⟩
            exact h2 (hiff.mp h5)),
          if_neg (by intro ⟨h3, h4, h5⟩; exact h2 h5)]
    · rw [if_neg (by intro ⟨h2, h3, _⟩; exact h1 ⟨h2, h3⟩),
        if_neg (by intro ⟨h2, h3, _⟩; exact h1 ⟨h2, h3⟩)]
  · intro d2 kept r2 acc2 he hinv
    rw [List.nil_append] at he
    have hkept : kept.length = a ∧ Canonical nf kept :=
      (mem_iter_possible_rolls hf kept).mp (mem_of_decomp he)
    have hnotin : kept ∉ d2 := not_mem_of_nodup_decomp (nodup_iter_possible_rolls hf) he
    have halt : a < nd := by omega
    -- the value written for kept is exactly the recursive expectation
    have hval : (((List.range nf).map
        (fun i => (getVal acc2 (sortRoll (kept ++ [i + 1]))).getD 0)).sum) / (nf : ℚ) =
        vgkFun nf cF (nd - kept.length) kept := by
      have hstep : ∀ i ∈ List.range nf,
          (getVal acc2 (sortRoll (kept ++ [i + 1]))).getD 0 =
          vgkFun nf cF (nd - (a + 1)) (sortRoll (kept ++ [i + 1])) := by
        intro i hi
        have hibound : i < nf := List.mem_range.mp hi
        have hcan : Canonical nf (sortRoll (kept ++ [i + 1])) :=
          canonical_sortRoll_append hkept.2 (by omega) (by omega)
        have hlen : (sortRoll (kept ++ [i + 1])).length = a + 1 := by
          rw [length_sortRoll_append, hkept.1]
        by_cases hfull : a + 1 = nd
        · have h3 : ¬ (Canonical nf (sortRoll (kept ++ [i + 1])) ∧
              (sortRoll (kept ++ [i + 1])).length < nd ∧
              (nd - 1 - (sortRoll (kept ++ [i + 1])).length < dlen ∨
                ((sortRoll (kept ++ [i + 1])).length = a ∧
                  sortRoll (kept ++ [i + 1]) ∈ d2))) := by
            intro ⟨_, h4, _⟩
            omega
          rw [hinv _, if_neg h3]
          have h5 : (getVal next (sortRoll (kept ++ [i + 1]))).isSome = true :=
            htot _ hcan (by omega)
          have h6 : nd - (a + 1) = 0 := by omega
          rw [h6, vgkFun, hcF]
        · have h3 : Canonical nf (sortRoll (kept ++ [i + 1])) ∧
              (sortRoll (kept ++ [i + 1])).length < nd ∧
              (nd - 1 - (sortRoll (kept ++ [i + 1])).length < dlen ∨
                ((sortRoll (kept ++ [i + 1])).length = a ∧
                  sortRoll (kept ++ [i + 1]) ∈ d2)) := by
            refine ⟨hcan, by omega, Or.inl (by omega)⟩
          rw [hinv _, if_pos h3, hlen]
          simp
      rw [List.map_congr_left hstep]
      rw [hkept.1]
      have h7 : nd - a = (nd - (a + 1)) + 1 := by omega
      rw [h7, vgkFun]
    intro k
    by_cases hk : k = kept
    · subst hk
      rw [getVal_setVal_self, hval]
      rw [if_pos ⟨hkept.2, by omega, Or.inr ⟨hkept.1, List.mem_append_right _ (List.mem_cons_self _ _)⟩⟩]
    · rw [getVal_setVal_ne _ _ _ _ (fun h => hk h.symm), hinv k]
      by_cases h1 : Canonical nf k ∧ k.length < nd ∧
          (nd - 1 - k.length < dlen ∨ (k.length = a ∧ k ∈ d2))
      · have h6 : nd - 1 - k.length < dlen ∨ (k.length = a ∧ k ∈ d2 ++ [kept]) := by
          rcases h1.2.2 with h2 | h2
          · exact Or.inl h2
          · exact Or.inr ⟨h2.1, List.mem_append_left _ h2.2⟩
        rw [if_pos h1, if_pos ⟨h1.1, h1.2.1, h6⟩]
      · rw [if_neg h1, if_neg (by
          intro ⟨h2, h3, h4⟩
          rcases h4 with h4 | h4
          · exact h1 ⟨h2, h3, Or.inl h4⟩
          · rcases List.mem_append.mp h4.2 with h5 | h5
            · exact h1 ⟨h2, h3, Or.inr ⟨h4.1, h5⟩⟩
            · exact hk (List.mem_singleton.mp h5))]

theorem getVal_compute_values_given_kept {nd nf : ℕ} (hf : 1 ≤ nf) (next : ValTable)
    (htot : ∀ r : Roll, Canonical nf r → r.length = nd → (getVal next r).isSome = true) :
    ∀ k : Roll, getVal (compute_values_given_kept nd nf next) k =
      if Canonical nf k ∧ k.length < nd
      then some (vgkFun nf (fun r => (getVal next r).getD 0) (nd - k.length) k)
      else getVal next k := by
  have hmain := foldl_inv
    (fun acc num_kept =>
      (iter_possible_rolls num_kept nf).foldl
        (fun acc2 kept =>
          setVal acc2 kept
            ((((List.range nf).map
                (fun i => (getVal acc2 (sortRoll (kept ++ [i + 1]))).getD 0)).sum) / (nf : ℚ)))
        acc)
    (fun done acc => ∀ k : Roll, getVal acc k =
      if Canonical nf k ∧ k.length < nd ∧ nd - 1 - k.length < done.length
      then some (vgkFun nf (fun r => (getVal next r).getD 0) (nd - k.length) k)
      else getVal next k)
    ((List.range nd).reverse) [] next
    (by
      intro k
      rw [if_neg (by intro ⟨_, _, h⟩; simp at h)])
    (by
      intro d a r acc2 he hinv
      rw [List.nil_append] at he
      obtain ⟨ha, hdlt⟩ := reverse_range_decomp he
      have hres := getVal_cvk_inner hf next htot ha hdlt acc2 hinv
      intro k
      rw [hres k]
      simp only [List.length_append, List.length_cons, List.length_nil])
  intro k
  rw [List.nil_append] at hmain
  rw [compute_values_given_kept, hmain k]
  by_cases h1 : Canonical nf k ∧ k.length < nd
  · rw [if_pos ⟨h1.1, h1.2, by simp; omega⟩, if_pos h1]
  · rw [if_neg (by intro ⟨h2, h3, _⟩; exact h1 ⟨h2, h3⟩), if_neg h1]

/-! ### The relaxation pattern shared by both resolvers -/

/-- One value-relaxation step: overwrite the target key when the candidate
value strictly exceeds the stored one. -/
def relaxV (t : ValTable) (p : Roll × ℚ) : ValTable :=
  if p.2 > (getVal t p.1).getD 0 then setVal t p.1 p.2 else t

theorem getVal_relaxV_isSome (t : ValTable) (p : Roll × ℚ) (q : Roll)
    (hp : (getVal t p.1).isSome = true) :
    (getVal (relaxV t p) q).isSome = (getVal t q).isSome := by
  rw [relaxV]
  by_cases h1 : p.2 > (getVal t p.1).getD 0
  · rw [if_pos h1]
    by_cases h2 : p.1 = q
    · subst h2
      rw [getVal_setVal_self, hp]
      rfl
    · rw [getVal_setVal_ne _ _ _ _ h2]
  · rw [if_neg h1]

theorem getVal_foldl_relaxV :
    ∀ (cands : List (Roll × ℚ)) (t : ValTable),
      (∀ p ∈ cands, (getVal t p.1).isSome = true) → ∀ key : Roll,
      getVal (cands.foldl relaxV t) key =
        (getVal t key).map
          (fun v0 => (((cands.filter (fun p => p.1 = key)).map (fun p => p.2)).foldl max v0)) := by
  intro cands
  induction cands with
  | nil =>
    intro t _ key
    simp only [List.foldl_nil, List.filter_nil, List.map_nil]
    cases getVal t key <;> rfl
  | cons p rest ih =>
    intro t hkeys key
    have hp : (getVal t p.1).isSome = true := hkeys p (List.mem_cons_self _ _)
    have hrest : ∀ q ∈ rest, (getVal (relaxV t p) q.1).isSome = true := by
      intro q hq
      rw [getVal_relaxV_isSome t p q.1 hp]
      exact hkeys q (List.mem_cons_of_mem _ hq)
    rw [List.foldl_cons, ih (relaxV t p) hrest key]
    by_cases hkey : p.1 = key
    · subst hkey
      obtain ⟨v0, hv0⟩ := Option.isSome_iff_exists.mp hp
      have hnew : getVal (relaxV t p) p.1 = some (max v0 p.2) := by
        rw [relaxV, hv0]
        by_cases h1 : p.2 > (some v0).getD 0
        · rw [if_pos h1, getVal_setVal_self]
          simp only [Option.getD_some] at h1
          rw [max_eq_right (le_of_lt h1)]
        · rw [if_neg h1, hv0]
          simp only [Option.getD_some] at h1
          rw [max_eq_left (le_of_not_lt h1)]
      rw [hnew, hv0]
      rw [List.filter_cons_of_pos (by simp)]
      simp only [Option.map_some, List.map_cons, List.foldl_cons]
      rfl
    · have hsame : getVal (relaxV t p) key = getVal t key := by
        rw [relaxV]
        by_cases h1 : p.2 > (getVal t p.1).getD 0
        · rw [if_pos h1, getVal_setVal_ne _ _ _ _ hkey]
        · rw [if_neg h1]
      rw [hsame]
      rw [List.filter_cons_of_neg (by simpa using hkey)]

/-! ### The brute-force resolver as a relaxation sequence -/

/-- The candidate stream of the brute-force resolver: for each kept size
descending, each kept subset and each completion, propose the conditional
value of the kept subset for the completed roll. -/
def bruteCands (nd nf : ℕ) (vgk : ValTable) : List (Roll × ℚ) :=
  ((List.range nd).reverse).flatMap (fun s =>
    (iter_possible_rolls s nf).flatMap (fun kept =>
      (iter_possible_rolls (nd - s) nf).map (fun other =>
        (sortRoll (kept ++ other), (getVal vgk kept).getD 0))))

theorem compute_from_cond_fst (nd nf : ℕ) (kao : Bool) (vgk : ValTable) :
    (compute_from_cond nd nf kao vgk).1 =
      (bruteCands nd nf vgk).foldl relaxV
        ((iter_possible_rolls nd nf).map (fun r => (r, (getVal vgk r).getD 0))) := by
  rw [compute_from_cond, bruteCands, foldl_flatMap]
  rw [foldl_proj _
    (fun acc s =>
      (iter_possible_rolls s nf).foldl
        (fun acc2 kept =>
          ((iter_possible_rolls (nd - s) nf).map
            (fun other => (sortRoll (kept ++ other), (getVal vgk kept).getD 0))).foldl
            relaxV acc2)
        acc)
    Prod.fst ?_ ((List.range nd).reverse) _]
  · congr 1
    funext acc s
    rw [foldl_flatMap]
  · intro st s
    rw [foldl_proj _
      (fun acc2 kept =>
        ((iter_possible_rolls (nd - s) nf).map
          (fun other => (sortRoll (kept ++ other), (getVal vgk kept).getD 0))).foldl
          relaxV acc2)
      Prod.fst ?_ (iter_possible_rolls s nf) st]
    intro st2 kept
    dsimp only
    rw [List.foldl_map]
    rw [foldl_proj _
      (fun acc3 other => relaxV acc3 (sortRoll (kept ++ other), (getVal vgk kept).getD 0))
      Prod.fst ?_ (iter_possible_rolls (nd - s) nf) st2]
    intro st3 other
    dsimp only
    simp only [relaxV]
    by_cases h1 : (getVal vgk kept).getD 0 > (getVal st3.1 (sortRoll (kept ++ other))).getD 0
    · rw [if_pos h1, if_pos h1]
    · rw [if_neg h1, if_neg h1]
      by_cases h2 : kao = true ∧ (getVal vgk kept).getD 0 = (getVal st3.1 (sortRoll (kept ++ other))).getD 0
      · rw [if_pos h2]
      · rw [if_neg h2]

theorem mem_bruteCands {nd nf : ℕ} {vgk : ValTable} {p : Roll × ℚ} :
    p ∈ bruteCands nd nf vgk ↔
      ∃ s, s ∈ List.range nd ∧ ∃ kept ∈ iter_possible_rolls s nf,
        ∃ other ∈ iter_possible_rolls (nd - s) nf,
          p = (sortRoll (kept ++ other), (getVal vgk kept).getD 0) := by
  rw [bruteCands]
  simp only [List.mem_flatMap, List.mem_map, List.mem_reverse]
  constructor
  · rintro ⟨s, hs, kept, hkept, other, hother, he⟩
    exact ⟨s, hs, kept, hkept, other, hother, he.symm⟩
  · rintro ⟨s, hs, kept, hkept, other, hother, he⟩
    exact ⟨s, hs, kept, hkept, other, hother, he.symm⟩

theorem getVal_compute_from_cond_fst {nd nf : ℕ} (hf : 1 ≤ nf) (kao : Bool) (vgk : ValTable) :
    ∀ key : Roll, getVal (compute_from_cond nd nf kao vgk).1 key =
      if Canonical nf key ∧ key.length = nd
      then some (maxOverSubrolls (fun k => (getVal vgk k).getD 0) key)
      else none := by
  set cF : Roll → ℚ := fun k => (getVal vgk k).getD 0 with hcF
  set t0 : ValTable := (iter_possible_rolls nd nf).map (fun r => (r, cF r)) with ht0
  have ht0get : ∀ key : Roll, getVal t0 key =
      if key ∈ iter_possible_rolls nd nf then some (cF key) else none :=
    getVal_map_pair _ _
  have hkeys : ∀ p ∈ bruteCands nd nf vgk, (getVal t0 p.1).isSome = true := by
    intro p hp
    obtain ⟨s, hs, kept, hkept, other, hother, he⟩ := mem_bruteCands.mp hp
    obtain ⟨hkl, hkc⟩ := (mem_iter_possible_rolls hf kept).mp hkept
    obtain ⟨hol, hoc⟩ := (mem_iter_possible_rolls hf other).mp hother
    have hslt : s < nd := List.mem_range.mp hs
    have hmem : sortRoll (kept ++ other) ∈ iter_possible_rolls nd nf := by
      refine (mem_iter_possible_rolls hf _).mpr ⟨?_, sortRoll_sorted _, ?_⟩
      · rw [length_sortRoll, List.length_append, hkl, hol]
        omega
      · intro x hx
        rcases List.mem_append.mp (mem_sortRoll.mp hx) with h1 | h1
        · exact hkc.2 x h1
        · exact hoc.2 x h1
    rw [he, ht0get]
    rw [if_pos hmem]
    rfl
  intro key
  rw [compute_from_cond_fst, getVal_foldl_relaxV _ t0 hkeys key, ht0get]
  by_cases h1 : key ∈ iter_possible_rolls nd nf
  · obtain ⟨hkeyl, hkeyc⟩ := (mem_iter_possible_rolls hf key).mp h1
    rw [if_pos h1, if_pos ⟨hkeyc, hkeyl⟩]
    rw [Option.map_some']
    refine congrArg some ?_
    apply le_antisymm
    · apply foldl_max_le (maxOverSubrolls_base_le cF key)
      intro x hx
      obtain ⟨p, hp, rfl⟩ := List.mem_map.mp hx
      have hp2 := List.mem_filter.mp hp
      obtain ⟨s, hs, kept, hkept, other, hother, he⟩ := mem_bruteCands.mp hp2.1
      have htarget : p.1 = key := by simpa using hp2.2
      obtain ⟨hkl, hkc⟩ := (mem_iter_possible_rolls hf kept).mp hkept
      have hsub : List.Sublist kept key := by
        apply sublist_of_append_perm hkeyc.1 hkc.1
        rw [← sortRoll_eq_iff_perm hkeyc.1]
        rw [he] at htarget
        exact htarget
      have hval : p.2 = cF kept := by rw [he]
      rw [hval]
      exact maxOverSubrolls_le_of_sublist cF hsub
    · apply maxOverSubrolls_le (le_foldl_max _ _)
      intro k hsub
      by_cases hke : k = key
      · exact hke ▸ le_foldl_max _ _
      · have hkc : Canonical nf k := hkeyc.sublist hsub
        have hkl : k.length < nd := by
          rcases lt_or_eq_of_le (hsub.length_le) with h2 | h2
          · omega
          · exact absurd (hsub.eq_of_length (by omega)) hke
        obtain ⟨other, hoc, hol, hoe⟩ := exists_completion hkeyc hsub
        apply le_foldl_max_of_mem
        apply List.mem_map.mpr
        refine ⟨(key, cF k), ?_, rfl⟩
        apply List.mem_filter.mpr
        refine ⟨?_, by simp⟩
        apply mem_bruteCands.mpr
        refine ⟨k.length, List.mem_range.mpr hkl, k,
          (mem_iter_possible_rolls hf k).mpr ⟨rfl, hkc⟩, other,
          (mem_iter_possible_rolls hf other).mpr ⟨by omega, hoc⟩, ?_⟩
        rw [hoe]
  · rw [if_neg h1, if_neg (by
      intro ⟨h2, h3⟩
      exact h1 ((mem_iter_possible_rolls hf key).mpr ⟨h3, h2⟩))]
    rfl

/-! ### The dp resolver as a layered relaxation sequence -/

theorem getVal_foldl_relaxV_untouched :
    ∀ (cands : List (Roll × ℚ)) (t : ValTable) (q : Roll),
      (∀ p ∈ cands, p.1 ≠ q) → getVal (cands.foldl relaxV t) q = getVal t q := by
  intro cands
  induction cands with
  | nil => intro t q _; rfl
  | cons p rest ih =>
    intro t q h
    rw [List.foldl_cons, ih _ _ (fun p2 hp2 => h p2 (List.mem_cons_of_mem _ hp2))]
    rw [relaxV]
    by_cases h1 : p.2 > (getVal t p.1).getD 0
    · rw [if_pos h1, getVal_setVal_ne _ _ _ _ (h p (List.mem_cons_self _ _))]
    · rw [if_neg h1]

theorem getVal_foldl_setVal (g : Roll → ℚ) :
    ∀ (l : List Roll) (t0 : ValTable) (key : Roll),
      getVal (l.foldl (fun t k => setVal t k (g k)) t0) key =
        if key ∈ l then some (g key) else getVal t0 key := by
  intro l
  induction l with
  | nil => intro t0 key; simp
  | cons a rest ih =>
    intro t0 key
    rw [List.foldl_cons, ih]
    by_cases h1 : key ∈ rest
    · rw [if_pos h1, if_pos (List.mem_cons_of_mem _ h1)]
    · rw [if_neg h1]
      by_cases h2 : key = a
      · subst h2
        rw [getVal_setVal_self, if_pos (List.mem_cons_self _ _)]
      · rw [getVal_setVal_ne _ _ _ _ (fun h => h2 h.symm),
          if_neg (by intro h3; rcases List.mem_cons.mp h3 with h4 | h4; exact h2 h4; exact h1 h4)]

/-- The candidate stream of one dp relaxation layer: every one-die extension
of every roll of the previous size, valued at that predecessor. -/
def dpCands (nf : ℕ) (rv : ValTable) (s : ℕ) : List (Roll × ℚ) :=
  (iter_possible_rolls s nf).flatMap (fun prev =>
    (List.range nf).map (fun die => (sortRoll (prev ++ [die + 1]), (getVal rv prev).getD 0)))

theorem mem_dpCands {nf : ℕ} {rv : ValTable} {s : ℕ} {p : Roll × ℚ} :
    p ∈ dpCands nf rv s ↔
      ∃ prev ∈ iter_possible_rolls s nf, ∃ die ∈ List.range nf,
        p = (sortRoll (prev ++ [die + 1]), (getVal rv prev).getD 0) := by
  rw [dpCands]
  simp only [List.mem_flatMap, List.mem_map]
  constructor
  · rintro ⟨prev, hprev, die, hdie, he⟩
    exact ⟨prev, hprev, die, hdie, he.symm⟩
  · rintro ⟨prev, hprev, die, hdie, he⟩
    exact ⟨prev, hprev, die, hdie, he.symm⟩

theorem dpLayerInit_roll_values (nf : ℕ) (vgk : ValTable) (m : ℕ) (st : DpState) :
    (dpLayerInit nf vgk m st).roll_values =
      (iter_possible_rolls m nf).foldl
        (fun t kept => setVal t kept ((getVal vgk kept).getD 0)) st.roll_values := by
  rw [dpLayerInit]
  rw [foldl_proj _
    (fun t kept => setVal t kept ((getVal vgk kept).getD 0))
    DpState.roll_values ?_ (iter_possible_rolls m nf) st]
  intro s kept
  rfl

theorem dpRelax_roll_values {nf : ℕ} (hf : 1 ≤ nf) (kao : Bool) (k : ℕ) (st : DpState) :
    (dpRelax nf kao (k + 1) st).roll_values =
      (dpCands nf st.roll_values k).foldl relaxV st.roll_values := by
  rw [dpRelax, dpCands]
  have hmain := foldl_inv
    (fun s prev_kept =>
      let value := (getVal s.roll_values prev_kept).getD 0
      let mid := (getVal s.move_ref prev_kept).getD 0
      (List.range nf).foldl
        (fun s2 die =>
          let kept := sortRoll (prev_kept ++ [die + 1])
          if value > (getVal s2.roll_values kept).getD 0 then
            { roll_values := setVal s2.roll_values kept value
              move_ref := setVal s2.move_ref kept mid
              store := s2.store }
          else if kao ∧ value = (getVal s2.roll_values kept).getD 0 then
            let kid := (getVal s2.move_ref kept).getD 0
            { s2 with
                store := s2.store.set kid
                  (setUnion ((s2.store.get? kid).getD []) ((s2.store.get? mid).getD [])) }
          else s2)
        s)
    (fun processed s2 => s2.roll_values =
      (processed.flatMap (fun prev =>
        (List.range nf).map
          (fun die => (sortRoll (prev ++ [die + 1]), (getVal st.roll_values prev).getD 0)))).foldl
        relaxV st.roll_values)
    (iter_possible_rolls ((k + 1) - 1) nf) [] st rfl ?_
  · rw [List.nil_append] at hmain
    rw [hmain, foldl_flatMap]
    rw [foldl_flatMap]
    rfl
  · intro d prev r s2 he hinv
    rw [List.nil_append] at he
    have hprev : prev.length = (k + 1) - 1 ∧ Canonical nf prev :=
      (mem_iter_possible_rolls hf prev).mp (mem_of_decomp he)
    have htargets : ∀ p ∈ d.flatMap (fun prev =>
        (List.range nf).map
          (fun die => (sortRoll (prev ++ [die + 1]), (getVal st.roll_values prev).getD 0))),
        p.1 ≠ prev := by
      intro p hp
      obtain ⟨prev2, hprev2, hmap⟩ := List.mem_flatMap.mp hp
      obtain ⟨die2, hdie2, he3⟩ := List.mem_map.mp hmap
      have hprev2c : prev2.length = (k + 1) - 1 ∧ Canonical nf prev2 :=
        (mem_iter_possible_rolls hf prev2).mp (by
          rw [he]
          exact List.mem_append_left _ hprev2)
      intro hcontra
      have h1 : p.1.length = prev2.length + 1 := by
        rw [← he3, length_sortRoll_append]
      rw [hcontra, hprev.1, hprev2c.1] at h1
      omega
    have hvalue : (getVal s2.roll_values prev).getD 0 =
        (getVal st.roll_values prev).getD 0 := by
      rw [hinv, getVal_foldl_relaxV_untouched _ _ _ htargets]
    dsimp only
    rw [List.flatMap_append, List.foldl_append, ← hinv]
    simp only [List.flatMap_cons, List.flatMap_nil, List.append_nil]
    rw [List.foldl_map]
    rw [foldl_proj _
      (fun t die => relaxV t (sortRoll (prev ++ [die + 1]), (getVal st.roll_values prev).getD 0))
      DpState.roll_values ?_ (List.range nf) s2]
    intro s3 die
    dsimp only
    rw [← hvalue]
    set value := (getVal s2.roll_values prev).getD 0 with hv
    simp only [relaxV]
    by_cases h1 : value > (getVal s3.roll_values (sortRoll (prev ++ [die + 1]))).getD 0
    · rw [if_pos h1, if_pos h1]
    · rw [if_neg h1, if_neg h1]
      by_cases h2 : kao = true ∧ value = (getVal s3.roll_values (sortRoll (prev ++ [die + 1]))).getD 0
      · rw [if_pos h2]
      · rw [if_neg h2]

theorem maxOverSubrolls_sublist_le (c : Roll → ℚ) {p q : Roll} (h : List.Sublist p q) :
    maxOverSubrolls c p ≤ maxOverSubrolls c q := by
  obtain ⟨j, hj, he⟩ := maxOverSubrolls_attained c p
  rw [he]
  exact maxOverSubrolls_le_of_sublist c (hj.trans h)

theorem maxOverSubrolls_nil (c : Roll → ℚ) : maxOverSubrolls c [] = c [] := by
  simp [maxOverSubrolls, List.sublists_nil, max_self]

theorem range_decomp {n : ℕ} {d r : List ℕ} {a : ℕ}
    (h : List.range n = d ++ a :: r) : a = d.length ∧ d.length < n := by
  have hlen : n = d.length + 1 + r.length := by
    have h1 := congrArg List.length h
    simp at h1
    omega
  have h2 : (List.range n)[d.length]? = some a := by
    rw [h, List.getElem?_append_right (le_refl d.length)]
    simp
  rw [List.getElem?_range (by omega)] at h2
  have h3 : d.length = a := by simpa using h2
  exact ⟨h3.symm, by omega⟩

theorem dp_layer_step {nf : ℕ} (hf : 1 ≤ nf) (kao : Bool) (vgk : ValTable) (k : ℕ)
    (st : DpState)
    (hinv : ∀ key : Roll, getVal st.roll_values key =
      if Canonical nf key ∧ key.length ≤ k
      then some (maxOverSubrolls (fun j => (getVal vgk j).getD 0) key)
      else none) :
    ∀ key : Roll,
      getVal (dpRelax nf kao (k + 1) (dpLayerInit nf vgk (k + 1) st)).roll_values key =
      if Canonical nf key ∧ key.length ≤ k + 1
      then some (maxOverSubrolls (fun j => (getVal vgk j).getD 0) key)
      else none := by
  set cF : Roll → ℚ := fun j => (getVal vgk j).getD 0 with hcF
  rw [dpRelax_roll_values hf kao k (dpLayerInit nf vgk (k + 1) st),
    dpLayerInit_roll_values]
  set rv1 : ValTable := (iter_possible_rolls (k + 1) nf).foldl
    (fun t kept => setVal t kept ((getVal vgk kept).getD 0)) st.roll_values with hrv1
  have hrv1get : ∀ key : Roll, getVal rv1 key =
      if key ∈ iter_possible_rolls (k + 1) nf then some (cF key) else getVal st.roll_values key :=
    getVal_foldl_setVal _ _ st.roll_values
  have htarget_mem : ∀ p ∈ dpCands nf rv1 k, p.1 ∈ iter_possible_rolls (k + 1) nf := by
    intro p hp
    obtain ⟨prev, hprev, die, hdie, he⟩ := mem_dpCands.mp hp
    obtain ⟨hpl, hpc⟩ := (mem_iter_possible_rolls hf prev).mp hprev
    have hdie2 : die < nf := List.mem_range.mp hdie
    refine (mem_iter_possible_rolls hf _).mpr ?_
    rw [he]
    exact ⟨by rw [length_sortRoll_append, hpl],
      canonical_sortRoll_append hpc (by omega) (by omega)⟩
  have hkeys : ∀ p ∈ dpCands nf rv1 k, (getVal rv1 p.1).isSome = true := by
    intro p hp
    rw [hrv1get, if_pos (htarget_mem p hp)]
    rfl
  have hprevval : ∀ prev ∈ iter_possible_rolls k nf,
      (getVal rv1 prev).getD 0 = maxOverSubrolls cF prev := by
    intro prev hprev
    obtain ⟨hpl, hpc⟩ := (mem_iter_possible_rolls hf prev).mp hprev
    have hnot : prev ∉ iter_possible_rolls (k + 1) nf := by
      intro h1
      have := ((mem_iter_possible_rolls hf prev).mp h1).1
      omega
    rw [hrv1get, if_neg hnot, hinv, if_pos ⟨hpc, by omega⟩]
    rfl
  intro key
  rw [getVal_foldl_relaxV _ _ hkeys key]
  by_cases hcase : key ∈ iter_possible_rolls (k + 1) nf
  · obtain ⟨hkeyl, hkeyc⟩ := (mem_iter_possible_rolls hf key).mp hcase
    rw [hrv1get, if_pos hcase, Option.map_some']
    rw [if_pos ⟨hkeyc, by omega⟩]
    refine congrArg some ?_
    apply le_antisymm
    · apply foldl_max_le (maxOverSubrolls_base_le cF key)
      intro x hx
      obtain ⟨p, hp, rfl⟩ := List.mem_map.mp hx
      have hp2 := List.mem_filter.mp hp
      obtain ⟨prev, hprev, die, hdie, he⟩ := mem_dpCands.mp hp2.1
      have htarg : p.1 = key := by simpa using hp2.2
      obtain ⟨hpl, hpc⟩ := (mem_iter_possible_rolls hf prev).mp hprev
      have hsub : List.Sublist prev key := by
        apply sublist_of_append_perm hkeyc.1 hpc.1
        rw [← sortRoll_eq_iff_perm hkeyc.1]
        rw [he] at htarg
        exact htarg
      have hval : p.2 = maxOverSubrolls cF prev := by
        rw [he]
        exact hprevval prev hprev
      rw [hval]
      exact maxOverSubrolls_sublist_le cF hsub
    · apply maxOverSubrolls_le (le_foldl_max _ _)
      intro j hsub
      by_cases hje : j = key
      · exact hje ▸ le_foldl_max _ _
      · obtain ⟨a, hamem, hjsub, hsort, hlen⟩ := exists_lattice_pred hkeyc.1 hsub hje
        have hprevc : Canonical nf (key.erase a) := hkeyc.sublist (List.erase_sublist a key)
        have hprevl : (key.erase a).length = k := by omega
        have hprevmem : key.erase a ∈ iter_possible_rolls k nf :=
          (mem_iter_possible_rolls hf _).mpr ⟨hprevl, hprevc⟩
        have habound : 1 ≤ a ∧ a ≤ nf := hkeyc.2 a hamem
        have hdiemem : a - 1 ∈ List.range nf := List.mem_range.mpr (by omega)
        have hda : a - 1 + 1 = a := by omega
        have hcand : (key, (getVal rv1 (key.erase a)).getD 0) ∈ dpCands nf rv1 k := by
          apply mem_dpCands.mpr
          refine ⟨key.erase a, hprevmem, a - 1, hdiemem, ?_⟩
          rw [hda, hsort]
        calc cF j ≤ maxOverSubrolls cF (key.erase a) := maxOverSubrolls_le_of_sublist cF hjsub
          _ = (getVal rv1 (key.erase a)).getD 0 := (hprevval _ hprevmem).symm
          _ ≤ _ := by
              apply le_foldl_max_of_mem
              apply List.mem_map.mpr
              refine ⟨(key, (getVal rv1 (key.erase a)).getD 0), ?_, rfl⟩
              exact List.mem_filter.mpr ⟨hcand, by simp⟩
  · have hfilter : (dpCands nf rv1 k).filter (fun p => p.1 = key) = [] := by
      rw [List.filter_eq_nil_iff]
      intro p hp
      simp only [decide_eq_true_eq]
      intro he
      exact hcase (he ▸ htarget_mem p hp)
    rw [hfilter, hrv1get, if_neg hcase, hinv]
    by_cases h1 : Canonical nf key ∧ key.length ≤ k
    · rw [if_pos h1, if_pos ⟨h1.1, by omega⟩]
      rfl
    · rw [if_neg h1, if_neg (by
        intro ⟨h2, h3⟩
        rcases lt_or_eq_of_le h3 with h4 | h4
        · exact h1 ⟨h2, by omega⟩
        · exact hcase ((mem_iter_possible_rolls hf key).mpr ⟨by omega, h2⟩))]
      rfl

theorem getVal_compute_from_cond_dp_fst {nd nf : ℕ} (hf : 1 ≤ nf) (kao : Bool)
    (vgk : ValTable) :
    ∀ key : Roll, getVal (compute_from_cond_dp nd nf kao vgk).1 key =
      if Canonical nf key ∧ key.length = nd
      then some (maxOverSubrolls (fun j => (getVal vgk j).getD 0) key)
      else none := by
  set cF : Roll → ℚ := fun j => (getVal vgk j).getD 0 with hcF
  have hmain := foldl_inv
    (fun st k => dpRelax nf kao (k + 1) (dpLayerInit nf vgk (k + 1) st))
    (fun done st => ∀ key : Roll, getVal st.roll_values key =
      if Canonical nf key ∧ key.length ≤ done.length
      then some (maxOverSubrolls cF key)
      else none)
    (List.range nd) []
    ({ roll_values := [([], (getVal vgk []).getD 0)]
       move_ref := [([], 0)]
       store := [[([] : Roll)]] } : DpState)
    (by
      intro key
      simp only [List.length_nil, Nat.le_zero]
      by_cases h1 : key = []
      · subst h1
        rw [if_pos ⟨canonical_nil nf, rfl⟩, maxOverSubrolls_nil]
        simp [getVal]
      · rw [if_neg (by
          intro ⟨_, h2⟩
          exact h1 (List.length_eq_zero.mp h2))]
        simp only [getVal]
        rw [if_neg (by intro h2; exact h1 h2.symm)])
    (by
      intro d a r st2 he hinv
      rw [List.nil_append] at he
      obtain ⟨ha, _⟩ := range_decomp he
      subst ha
      have hstep := dp_layer_step hf kao vgk d.length st2 hinv
      intro key
      rw [hstep key]
      simp only [List.length_append, List.length_cons, List.length_nil])
  rw [List.nil_append] at hmain
  intro key
  rw [compute_from_cond_dp]
  simp only []
  rw [getVal_filter_length]
  by_cases h1 : key.length = nd
  · rw [if_pos h1, hmain key]
    simp only [List.length_range]
    by_cases h2 : Canonical nf key
    · rw [if_pos ⟨h2, by omega⟩, if_pos ⟨h2, h1⟩]
    · rw [if_neg (by intro ⟨h3, _⟩; exact h2 h3), if_neg (by intro ⟨h3, _⟩; exact h2 h3)]
  · rw [if_neg h1, if_neg (by intro ⟨_, h2⟩; exact h1 h2)]

/-! ### Claim C6: the roll enumerator -/

/-- C6: for every n at least 0 and faces at least 1, `iter_possible_rolls`
yields exactly `C(faces + n - 1, n)` tuples, each a non-decreasing tuple of
length n with entries between 1 and faces; every such tuple is yielded
exactly once, the yields are in strictly ascending lexicographic order, and
the zero-dice enumeration yields exactly the empty tuple. -/
theorem c6_roll_enumerator (n faces : ℕ) (hf : 1 ≤ faces) :
    (iter_possible_rolls n faces).length = Nat.choose (faces + n - 1) n ∧
    (∀ t : Roll, t ∈ iter_possible_rolls n faces ↔
      (t.length = n ∧ List.Sorted (· ≤ ·) t ∧ ∀ x ∈ t, 1 ≤ x ∧ x ≤ faces)) ∧
    List.Pairwise (List.Lex (· < ·)) (iter_possible_rolls n faces) ∧
    (iter_possible_rolls n faces).Nodup ∧
    iter_possible_rolls 0 faces = [[]] := by
  refine ⟨length_iter_possible_rolls hf, ?_, pairwise_iter_possible_rolls hf,
    nodup_iter_possible_rolls hf, by rw [iter_possible_rolls, if_pos rfl]⟩
  intro t
  rw [mem_iter_possible_rolls hf]
  unfold Canonical
  constructor
  · intro ⟨h1, h2, h3⟩; exact ⟨h1, h2, h3⟩
  · intro ⟨h1, h2, h3⟩; exact ⟨h1, h2, h3⟩

/-- Witness for C6 at the concrete configuration of two dice with three
faces. -/
theorem c6_roll_enumerator_witness :
    1 ≤ 3 ∧
    ((iter_possible_rolls 2 3).length = Nat.choose (3 + 2 - 1) 2 ∧
    (∀ t : Roll, t ∈ iter_possible_rolls 2 3 ↔
      (t.length = 2 ∧ List.Sorted (· ≤ ·) t ∧ ∀ x ∈ t, 1 ≤ x ∧ x ≤ 3)) ∧
    List.Pairwise (List.Lex (· < ·)) (iter_possible_rolls 2 3) ∧
    (iter_possible_rolls 2 3).Nodup ∧
    iter_possible_rolls 0 3 = [[]]) :=
  ⟨by norm_num, c6_roll_enumerator 2 3 (by norm_num)⟩

/-! ### Claim C1: both resolvers compute the maximum over sub-multisets -/

/-- C1: for every configuration with at least one face and every conditional
value table total over canonical rolls of length up to the dice count, both
resolver variants assign to every canonical full-length roll the maximum of
the conditional values over all of its sub-multisets (canonical kept
subsets), the empty roll and the roll itself included. -/
theorem c1_resolvers_max_over_submultisets (nd nf : ℕ) (hf : 1 ≤ nf)
    (cond : ValTable) (c : Roll → ℚ)
    (htot : ∀ k : Roll, List.Sorted (· ≤ ·) k → (∀ x ∈ k, 1 ≤ x ∧ x ≤ nf) →
      k.length ≤ nd → getVal cond k = some (c k))
    (kao : Bool) :
    ∀ r : Roll, List.Sorted (· ≤ ·) r → (∀ x ∈ r, 1 ≤ x ∧ x ≤ nf) → r.length = nd →
      ∃ v : ℚ,
        getVal (compute_from_cond nd nf kao cond).1 r = some v ∧
        getVal (compute_from_cond_dp nd nf kao cond).1 r = some v ∧
        (∀ k : Roll, List.Sorted (· ≤ ·) k → (k : Multiset ℕ) ≤ (r : Multiset ℕ) →
          c k ≤ v) ∧
        (∃ k : Roll, List.Sorted (· ≤ ·) k ∧ (k : Multiset ℕ) ≤ (r : Multiset ℕ) ∧
          c k = v) := by
  intro r hsort hbound hlen
  have hrc : Canonical nf r := ⟨hsort, hbound⟩
  set cF : Roll → ℚ := fun j => (getVal cond j).getD 0 with hcF
  have hagree : ∀ k : Roll, List.Sublist k r → cF k = c k := by
    intro k hk
    have hkc : Canonical nf k := hrc.sublist hk
    rw [hcF]
    simp only []
    rw [htot k hkc.1 hkc.2 (by rw [← hlen]; exact hk.length_le)]
    rfl
  refine ⟨maxOverSubrolls cF r, ?_, ?_, ?_, ?_⟩
  · rw [getVal_compute_from_cond_fst hf kao cond r, if_pos ⟨hrc, hlen⟩]
  · rw [getVal_compute_from_cond_dp_fst hf kao cond r, if_pos ⟨hrc, hlen⟩]
  · intro k hks hkm
    have hsub : List.Sublist k r := sublist_of_msub_of_sorted hkm hks hsort
    rw [← hagree k hsub]
    exact maxOverSubrolls_le_of_sublist cF hsub
  · obtain ⟨k, hk, he⟩ := maxOverSubrolls_attained cF r
    exact ⟨k, hsort.sublist hk, msub_of_sublist hk, by rw [← hagree k hk, he]⟩

/-- The terminal table of the concrete two-face scenario, used by several
witnesses. -/
def exCondOneDie : ValTable := [([], 5), ([1], 0), ([2], 10)]

/-- A function view of `exCondOneDie`. -/
def exCondOneDieFun : Roll → ℚ := fun k => if k = [] then 5 else if k = [1] then 0 else 10

/-- Witness for C1 at one die with two faces. -/
theorem c1_resolvers_max_over_submultisets_witness :
    1 ≤ 2 ∧
    (∃ v : ℚ,
      getVal (compute_from_cond 1 2 false exCondOneDie).1 [2] = some v ∧
      getVal (compute_from_cond_dp 1 2 false exCondOneDie).1 [2] = some v ∧
      (∀ k : Roll, List.Sorted (· ≤ ·) k → (k : Multiset ℕ) ≤ (([2] : Roll) : Multiset ℕ) →
        exCondOneDieFun k ≤ v) ∧
      (∃ k : Roll, List.Sorted (· ≤ ·) k ∧ (k : Multiset ℕ) ≤ (([2] : Roll) : Multiset ℕ) ∧
        exCondOneDieFun k = v)) := by
  refine ⟨by norm_num, ?_⟩
  apply c1_resolvers_max_over_submultisets 1 2 (by norm_num) exCondOneDie exCondOneDieFun
    ?_ false [2] (by simp) (by norm_num) rfl
  intro k hs hb hl
  match k with
  | [] => rfl
  | [x] =>
    have hx := hb x (List.mem_cons_self _ _)
    have hx1 : x = 1 ∨ x = 2 := by omega
    rcases hx1 with rfl | rfl
    · rfl
    · rfl
  | x :: y :: t => simp at hl

/-! ### Claim C2: the two resolvers produce identical value tables -/

/-- C2: for every configuration with at least one face and every conditional
value table total over canonical rolls of length up to the dice count, the
brute-force and dp resolvers return exactly equal round value tables: the
same value under every key, hence the same set of keys. -/
theorem c2_resolver_value_tables_equal (nd nf : ℕ) (hf : 1 ≤ nf)
    (cond : ValTable) (c : Roll → ℚ)
    (_htot : ∀ k : Roll, List.Sorted (· ≤ ·) k → (∀ x ∈ k, 1 ≤ x ∧ x ≤ nf) →
      k.length ≤ nd → getVal cond k = some (c k))
    (kao : Bool) :
    (∀ k : Roll, getVal (compute_from_cond nd nf kao cond).1 k =
      getVal (compute_from_cond_dp nd nf kao cond).1 k) ∧
    (keysOf (compute_from_cond nd nf kao cond).1).toFinset =
      (keysOf (compute_from_cond_dp nd nf kao cond).1).toFinset := by
  have hpt : ∀ k : Roll, getVal (compute_from_cond nd nf kao cond).1 k =
      getVal (compute_from_cond_dp nd nf kao cond).1 k := by
    intro k
    rw [getVal_compute_from_cond_fst hf kao cond k,
      getVal_compute_from_cond_dp_fst hf kao cond k]
  refine ⟨hpt, ?_⟩
  ext a
  rw [List.mem_toFinset, List.mem_toFinset, mem_keysOf_iff, mem_keysOf_iff, hpt a]

/-- Witness for C2 at one die with two faces. -/
theorem c2_resolver_value_tables_equal_witness :
    1 ≤ 2 ∧
    ((∀ k : Roll, getVal (compute_from_cond 1 2 false exCondOneDie).1 k =
      getVal (compute_from_cond_dp 1 2 false exCondOneDie).1 k) ∧
    (keysOf (compute_from_cond 1 2 false exCondOneDie).1).toFinset =
      (keysOf (compute_from_cond_dp 1 2 false exCondOneDie).1).toFinset) := by
  refine ⟨by norm_num, ?_⟩
  apply c2_resolver_value_tables_equal 1 2 (by norm_num) exCondOneDie exCondOneDieFun ?_ false
  intro k hs hb hl
  match k with
  | [] => rfl
  | [x] =>
    have hx := hb x (List.mem_cons_self _ _)
    have hx1 : x = 1 ∨ x = 2 := by omega
    rcases hx1 with rfl | rfl
    · rfl
    · rfl
  | x :: y :: t => simp at hl

/-! ### Claim C3: the conditional value recurrence -/

/-- C3: for every configuration with at least one face and every next-round
value table total over canonical rolls of the dice-count length,
`compute_values_given_kept` returns a table that agrees with the input on
every length-`nd` roll and satisfies, for every canonical shorter kept roll,
the one-die averaging recurrence. -/
theorem c3_values_given_kept_recurrence (nd nf : ℕ) (hf : 1 ≤ nf)
    (next : ValTable) (c : Roll → ℚ)
    (htot : ∀ r : Roll, List.Sorted (· ≤ ·) r → (∀ x ∈ r, 1 ≤ x ∧ x ≤ nf) →
      r.length = nd → getVal next r = some (c r)) :
    ∃ v : Roll → ℚ,
      (∀ k : Roll, List.Sorted (· ≤ ·) k → (∀ x ∈ k, 1 ≤ x ∧ x ≤ nf) → k.length ≤ nd →
        getVal (compute_values_given_kept nd nf next) k = some (v k)) ∧
      (∀ r : Roll, r.length = nd →
        getVal (compute_values_given_kept nd nf next) r = getVal next r) ∧
      (∀ kept : Roll, List.Sorted (· ≤ ·) kept → (∀ x ∈ kept, 1 ≤ x ∧ x ≤ nf) →
        kept.length < nd →
        v kept = (((List.range nf).map (fun i => v (sortRoll (kept ++ [i + 1])))).sum) / (nf : ℚ)) := by
  set cF : Roll → ℚ := fun j => (getVal next j).getD 0 with hcF
  have htot2 : ∀ r : Roll, Canonical nf r → r.length = nd → (getVal next r).isSome = true := by
    intro r hc hl
    rw [htot r hc.1 hc.2 hl]
    rfl
  have hchar := getVal_compute_values_given_kept hf next htot2
  refine ⟨fun k => vgkFun nf cF (nd - k.length) k, ?_, ?_, ?_⟩
  · intro k hks hkb hkl
    rw [hchar k]
    rcases lt_or_eq_of_le hkl with h1 | h1
    · rw [if_pos ⟨⟨hks, hkb⟩, h1⟩]
    · rw [if_neg (by intro ⟨_, h2⟩; omega)]
      have h3 : nd - k.length = 0 := by omega
      show getVal next k = some (vgkFun nf cF (nd - k.length) k)
      rw [h3, vgkFun, htot k hks hkb h1]
      refine congrArg some ?_
      show c k = (getVal next k).getD 0
      rw [htot k hks hkb h1]
      rfl
  · intro r hl
    rw [hchar r, if_neg (by intro ⟨_, h2⟩; omega)]
  · intro kept hks hkb hkl
    have h1 : nd - kept.length = (nd - (kept.length + 1)) + 1 := by omega
    show vgkFun nf cF (nd - kept.length) kept =
      (((List.range nf).map (fun i =>
        vgkFun nf cF (nd - (sortRoll (kept ++ [i + 1])).length) (sortRoll (kept ++ [i + 1])))).sum) /
        (nf : ℚ)
    rw [h1, vgkFun]
    congr 1
    congr 1
    apply List.map_congr_left
    intro i _
    have h2 : (sortRoll (kept ++ [i + 1])).length = kept.length + 1 :=
      length_sortRoll_append kept (i + 1)
    rw [h2]

/-- The terminal table of the concrete one-die scenario. -/
def exTermOneDie : ValTable := [([1], 0), ([2], 10)]

/-- A function view of `exTermOneDie`. -/
def exTermOneDieFun : Roll → ℚ := fun r => if r = [1] then 0 else 10

/-- Witness for C3 at one die with two faces. -/
theorem c3_values_given_kept_recurrence_witness :
    1 ≤ 2 ∧
    (∃ v : Roll → ℚ,
      (∀ k : Roll, List.Sorted (· ≤ ·) k → (∀ x ∈ k, 1 ≤ x ∧ x ≤ 2) → k.length ≤ 1 →
        getVal (compute_values_given_kept 1 2 exTermOneDie) k = some (v k)) ∧
      (∀ r : Roll, r.length = 1 →
        getVal (compute_values_given_kept 1 2 exTermOneDie) r = getVal exTermOneDie r) ∧
      (∀ kept : Roll, List.Sorted (· ≤ ·) kept → (∀ x ∈ kept, 1 ≤ x ∧ x ≤ 2) →
        kept.length < 1 →
        v kept = (((List.range 2).map (fun i => v (sortRoll (kept ++ [i + 1])))).sum) / (2 : ℚ))) := by
  refine ⟨by norm_num, ?_⟩
  apply c3_values_given_kept_recurrence 1 2 (by norm_num) exTermOneDie exTermOneDieFun
  intro r hs hb hl
  match r with
  | [x] =>
    have hx := hb x (List.mem_cons_self _ _)
    have hx1 : x = 1 ∨ x = 2 := by omega
    rcases hx1 with rfl | rfl
    · rfl
    · rfl

/-! ### Claim C7: the concrete one-die scenario -/

/-- The solved widget of the concrete scenario: one die, two faces, two
rolls, terminal values 0 for face one and 10 for face two. -/
def exWidget : Widget := (mkWidget 1 2 2 false true exTermOneDie).toOption.getD ⟨[], []⟩

/-- C7: in the concrete scenario the conditional value table of the computed
round values the empty keep at 5, keeping face one at 0 and keeping face two
at 10; round zero values face one at 5 with optimal move the empty keep and
face two at 10 with optimal move keeping the two, and the prior expectation
is 7.5. -/
theorem c7_concrete_scenario :
    mkWidget 1 2 2 false true exTermOneDie = Except.ok exWidget ∧
    getVal (compute_values_given_kept 1 2 ((exWidget.roll_values.get? 1).getD [])) [] = some 5 ∧
    getVal (compute_values_given_kept 1 2 ((exWidget.roll_values.get? 1).getD [])) [1] = some 0 ∧
    getVal (compute_values_given_kept 1 2 ((exWidget.roll_values.get? 1).getD [])) [2] = some 10 ∧
    getVal ((exWidget.roll_values.get? 0).getD []) [1] = some 5 ∧
    getVal ((exWidget.roll_values.get? 0).getD []) [2] = some 10 ∧
    (∃ m : List Roll, getVal ((exWidget.optimal_moves.get? 0).getD []) [1] = some m ∧
      m.toFinset = ({[]} : Finset Roll)) ∧
    (∃ m : List Roll, getVal ((exWidget.optimal_moves.get? 0).getD []) [2] = some m ∧
      m.toFinset = ({[2]} : Finset Roll)) ∧
    ((getVal ((exWidget.roll_values.get? 0).getD []) [1]).getD 0 +
      (getVal ((exWidget.roll_values.get? 0).getD []) [2]).getD 0) / 2 = 15 / 2 := by
  refine ⟨by with_unfolding_all rfl, by with_unfolding_all decide,
    by with_unfolding_all decide, by with_unfolding_all decide,
    by with_unfolding_all decide, by with_unfolding_all decide,
    ⟨[[]], by with_unfolding_all decide, by with_unfolding_all decide⟩,
    ⟨[[2]], by with_unfolding_all decide, by with_unfolding_all decide⟩,
    by with_unfolding_all decide⟩

/-! ### Claim C4: the dp move tables are corrupted by set aliasing -/

/-- A conditional value table on which the dp resolver shares one move-set
object between several rolls and then mutates it. -/
def exCondTwoDice : ValTable :=
  [([], 5), ([1], 5), ([2], 5), ([1, 1], 0), ([1, 2], 0), ([2, 2], 0)]

/-- C4 fails on the dp resolver: with `keep_all_optimal` set, the move
collection returned for the roll (1,1) contains the kept subset (2,), which
is not even a sub-multiset of (1,1), because the set object aliased from the
predecessor (1,) was later mutated through the roll (1,2).  The set of all
maximizing sub-multisets of (1,1) is {(), (1,)}, which is what the
brute-force resolver returns. -/
theorem c4_dp_move_table_aliasing_bug :
    getVal (compute_from_cond_dp 2 2 true exCondTwoDice).2 [1, 1] = some [[1], [], [2]] ∧
    ([2] : Roll) ∈ ([[1], [], [2]] : List Roll) ∧
    is_subroll [2] [1, 1] = false ∧
    maxOverSubrolls (fun k => (getVal exCondTwoDice k).getD 0) [1, 1] = 5 ∧
    (([1, 1] : Roll).sublists.filter
      (fun k => (getVal exCondTwoDice k).getD 0 = 5)).toFinset = ({[], [1]} : Finset Roll) ∧
    getVal (compute_from_cond 2 2 true exCondTwoDice).2 [1, 1] = some [[1], []] ∧
    (([[1], []] : List Roll)).toFinset = ({[], [1]} : Finset Roll) := by
  refine ⟨by with_unfolding_all decide, by decide, by decide,
    by with_unfolding_all decide, by with_unfolding_all decide,
    by with_unfolding_all decide, by decide⟩

/-! ### Characterization of the input validator -/

/-- An input is consistent when entries whose keys canonicalize to the same
roll always carry the same value. -/
def Consistent (input : List (Roll × ℚ)) : Prop :=
  input.Pairwise (fun p q => sortRoll p.1 = sortRoll q.1 → p.2 = q.2)

/-- The entry that determines the stored value of a canonical key: the last
input entry whose key sorts to it. -/
def entryFor (input : List (Roll × ℚ)) (s : Roll) : Option (Roll × ℚ) :=
  input.reverse.find? (fun p => sortRoll p.1 = s)

theorem entryFor_append_one (done : List (Roll × ℚ)) (p : Roll × ℚ) (s : Roll) :
    entryFor (done ++ [p]) s =
      if sortRoll p.1 = s then some p else entryFor done s := by
  rw [entryFor, List.reverse_append]
  simp only [List.reverse_cons, List.reverse_nil, List.nil_append, List.singleton_append]
  by_cases h : sortRoll p.1 = s
  · rw [List.find?_cons_of_pos _ (by simpa using h), if_pos h]
  · rw [List.find?_cons_of_neg _ (by simpa using h), if_neg h]
    rfl

theorem entryFor_mem {input : List (Roll × ℚ)} {s : Roll} {q : Roll × ℚ}
    (h : entryFor input s = some q) : q ∈ input ∧ sortRoll q.1 = s := by
  refine ⟨List.mem_reverse.mp (List.mem_of_find?_eq_some h), ?_⟩
  have h2 := List.find?_some h
  simpa using h2

theorem entryFor_isSome (input : List (Roll × ℚ)) (s : Roll) :
    (entryFor input s).isSome = true ↔ ∃ p ∈ input, sortRoll p.1 = s := by
  rw [entryFor, List.find?_isSome]
  constructor
  · rintro ⟨p, hp, hps⟩
    exact ⟨p, List.mem_reverse.mp hp, by simpa using hps⟩
  · rintro ⟨p, hp, hps⟩
    exact ⟨p, List.mem_reverse.mpr hp, by simpa using hps⟩

theorem consistent_symm :
    Symmetric (fun p q : Roll × ℚ => sortRoll p.1 = sortRoll q.1 → p.2 = q.2) := by
  intro p q h h2
  exact (h h2.symm).symm

theorem consistent_entryFor_value {done : List (Roll × ℚ)} (hcons : Consistent done)
    {s : Roll} {q : Roll × ℚ} (hq : entryFor done s = some q) :
    ∀ q2 ∈ done, sortRoll q2.1 = s → q2.2 = q.2 := by
  intro q2 hq2 hq2s
  obtain ⟨hqm, hqs⟩ := entryFor_mem hq
  by_cases he : q2 = q
  · rw [he]
  · exact hcons.forall consistent_symm hq2 hqm he (by rw [hq2s, hqs])

/-- Main run lemma for the validation loop: on consistent input it succeeds
and stores the last value supplied for every canonical key; on inconsistent
input it raises the inconsistency error, whose payload names two clashing
entries. -/
theorem parseLoop_run :
    ∀ (rest done : List (Roll × ℚ)) (acc : ValTable),
      (∀ s : Roll, getVal acc s = (entryFor done s).map (fun p => p.2)) →
      Consistent done →
      (Consistent (done ++ rest) →
        ∃ parsed, parseLoop acc rest = Except.ok parsed ∧
          ∀ s : Roll, getVal parsed s = (entryFor (done ++ rest) s).map (fun p => p.2)) ∧
      (¬ Consistent (done ++ rest) →
        ∃ r v1 v2 l1 q l2 p2 l3,
          parseLoop acc rest = Except.error (ParseError.inconsistent r v1 v2) ∧
          done ++ rest = l1 ++ q :: l2 ++ p2 :: l3 ∧ sortRoll q.1 = r ∧ sortRoll p2.1 = r ∧
          q.2 = v1 ∧ p2.2 = v2 ∧ v1 ≠ v2) := by
  intro rest
  induction rest with
  | nil =>
    intro done acc hget hcons
    constructor
    · intro _
      exact ⟨acc, rfl, by simpa using hget⟩
    · intro hncons
      exact absurd (by simpa using hcons) hncons
  | cons p rest2 ih =>
    intro done acc hget hcons
    have hassoc : done ++ p :: rest2 = (done ++ [p]) ++ rest2 := by simp
    cases hacc : getVal acc (sortRoll p.1) with
    | some pre =>
      have hfound : ∃ q : Roll × ℚ, entryFor done (sortRoll p.1) = some q ∧ q.2 = pre := by
        rw [hget] at hacc
        cases hq : entryFor done (sortRoll p.1) with
        | none => rw [hq] at hacc; simp at hacc
        | some q =>
          rw [hq] at hacc
          simp only [Option.map_some'] at hacc
          exact ⟨q, rfl, by simpa using hacc⟩
      obtain ⟨q, hq, hqpre⟩ := hfound
      obtain ⟨hqmem, hqsort⟩ := entryFor_mem hq
      by_cases hne : pre ≠ p.2
      · -- the loop raises the inconsistency error here
        have hloop : parseLoop acc (p :: rest2) =
            Except.error (ParseError.inconsistent (sortRoll p.1) pre p.2) := by
          rw [parseLoop, hacc]
          exact if_pos hne
        have hnc : ¬ Consistent (done ++ p :: rest2) := by
          intro hc
          rw [Consistent, List.pairwise_append] at hc
          exact hne ((hqpre ▸ hc.2.2 q hqmem p (List.mem_cons_self _ _) hqsort) : pre = p.2)
        obtain ⟨l1, l2, hdone⟩ := List.append_of_mem hqmem
        have hshape : done ++ p :: rest2 = l1 ++ q :: (l2 ++ p :: rest2) := by
          rw [hdone]
          simp
        constructor
        · intro hc
          exact absurd hc hnc
        · intro _
          exact ⟨sortRoll p.1, pre, p.2, l1, q, l2, p, rest2, hloop, by
            rw [hshape]; simp, hqsort, rfl, hqpre, rfl, hne⟩
      · -- same value resupplied: store and continue
        push_neg at hne
        have hloop : parseLoop acc (p :: rest2) = parseLoop (setVal acc (sortRoll p.1) p.2) rest2 := by
          rw [parseLoop, hacc]
          exact if_neg (fun h => h hne)
        have hget2 : ∀ s : Roll, getVal (setVal acc (sortRoll p.1) p.2) s =
            (entryFor (done ++ [p]) s).map (fun pp => pp.2) := by
          intro s
          rw [entryFor_append_one]
          by_cases hs : sortRoll p.1 = s
          · subst hs
            rw [getVal_setVal_self, if_pos rfl]
            rfl
          · rw [getVal_setVal_ne _ _ _ _ hs, if_neg hs, hget]
        have hcons2 : Consistent (done ++ [p]) := by
          rw [Consistent, List.pairwise_append]
          refine ⟨hcons, List.pairwise_singleton _ _, ?_⟩
          intro a ha b hb hab
          rw [List.mem_singleton.mp hb]
          rw [List.mem_singleton.mp hb] at hab
          have := consistent_entryFor_value hcons hq a ha hab
          rw [this, hqpre, hne]
        have hih := ih (done ++ [p]) (setVal acc (sortRoll p.1) p.2) hget2 hcons2
        rw [hassoc]
        rw [hloop]
        exact hih
    | none =>
      have hnone : entryFor done (sortRoll p.1) = none := by
        rw [hget] at hacc
        cases hq : entryFor done (sortRoll p.1) with
        | none => rfl
        | some q => rw [hq] at hacc; simp at hacc
      have hloop : parseLoop acc (p :: rest2) = parseLoop (setVal acc (sortRoll p.1) p.2) rest2 := by
        rw [parseLoop, hacc]
      have hget2 : ∀ s : Roll, getVal (setVal acc (sortRoll p.1) p.2) s =
          (entryFor (done ++ [p]) s).map (fun pp => pp.2) := by
        intro s
        rw [entryFor_append_one]
        by_cases hs : sortRoll p.1 = s
        · subst hs
          rw [getVal_setVal_self, if_pos rfl]
          rfl
        · rw [getVal_setVal_ne _ _ _ _ hs, if_neg hs, hget]
      have hcons2 : Consistent (done ++ [p]) := by
        rw [Consistent, List.pairwise_append]
        refine ⟨hcons, List.pairwise_singleton _ _, ?_⟩
        intro a ha b hb hab
        rw [List.mem_singleton.mp hb] at hab
        exfalso
        have : (entryFor done (sortRoll p.1)).isSome = true :=
          (entryFor_isSome done (sortRoll p.1)).mpr ⟨a, ha, hab⟩
        rw [hnone] at this
        simp at this
      have hih := ih (done ++ [p]) (setVal acc (sortRoll p.1) p.2) hget2 hcons2
      rw [hassoc, hloop]
      exact hih

/-- A conflict: two entries, the second occurring after the first, whose
keys canonicalize alike but whose values differ. -/
def HasConflict (input : List (Roll × ℚ)) : Prop :=
  ∃ l1 q l2 p2 l3, input = l1 ++ q :: l2 ++ p2 :: l3 ∧
    sortRoll (q : Roll × ℚ).1 = sortRoll (p2 : Roll × ℚ).1 ∧
    (q : Roll × ℚ).2 ≠ (p2 : Roll × ℚ).2

theorem consistent_iff_no_conflict (input : List (Roll × ℚ)) :
    Consistent input ↔ ¬ HasConflict input := by
  constructor
  · intro hcons ⟨l1, q, l2, p2, l3, he, hsort, hne⟩
    have hsub : List.Sublist [q, p2] input := by
      rw [he]
      have h1 : List.Sublist [p2] (p2 :: l3) :=
        List.Sublist.cons₂ p2 (List.nil_sublist l3)
      have h2 : List.Sublist [p2] (l2 ++ p2 :: l3) :=
        h1.trans (List.sublist_append_right l2 (p2 :: l3))
      have h3 : List.Sublist [q, p2] (q :: (l2 ++ p2 :: l3)) :=
        List.Sublist.cons₂ q h2
      have h6 := h3.trans (List.sublist_append_right l1 (q :: (l2 ++ p2 :: l3)))
      simp only [List.cons_append, List.append_assoc] at h6 ⊢
      exact h6
    have hpair := List.Pairwise.sublist hsub hcons
    rcases List.pairwise_cons.mp hpair with ⟨hrel, _⟩
    exact hne (hrel p2 (List.mem_singleton.mpr rfl) hsort)
  · intro hnc
    by_contra hncons
    apply hnc
    clear hnc
    induction input with
    | nil => exact absurd List.Pairwise.nil hncons
    | cons x l ih =>
      by_cases hl : Consistent l
      · have hx : ¬ ∀ b ∈ l, sortRoll x.1 = sortRoll b.1 → x.2 = b.2 := by
          intro hforall
          exact hncons (List.pairwise_cons.mpr ⟨hforall, hl⟩)
        push_neg at hx
        obtain ⟨b, hb, hbsort, hbne⟩ := hx
        obtain ⟨s, t, hst⟩ := List.append_of_mem hb
        exact ⟨[], x, s, b, t, by rw [hst]; simp, hbsort, hbne⟩
      · obtain ⟨l1, q, l2, p2, l3, he, hsort, hne⟩ := ih hl
        exact ⟨x :: l1, q, l2, p2, l3, by rw [he]; simp, hsort, hne⟩

theorem mkWidget_error_iff (nd nf nr : ℕ) (kao udp : Bool) (input : List (Roll × ℚ)) :
    ∀ e : ParseError, mkWidget nd nf nr kao udp input = Except.error e ↔
      parse_roll_values nd nf input = Except.error e := by
  intro e
  rw [mkWidget]
  cases h : parse_roll_values nd nf input with
  | error e2 => simp
  | ok parsed => simp

theorem parse_of_parseLoop_ok {nd nf : ℕ} {input : List (Roll × ℚ)} {parsed : ValTable}
    (hok : parseLoop [] input = Except.ok parsed) :
    parse_roll_values nd nf input =
      (match (iter_possible_rolls nd nf).find? (fun r => !(hasKey parsed r)) with
       | some r => Except.error (ParseError.missing r)
       | none => Except.ok parsed) := by
  rw [parse_roll_values, hok]

theorem parse_of_parseLoop_error {nd nf : ℕ} {input : List (Roll × ℚ)} {e : ParseError}
    (herr : parseLoop [] input = Except.error e) :
    parse_roll_values nd nf input = Except.error e := by
  rw [parse_roll_values, herr]

/-! ### Claim C5: validation errors -/

/-- C5: the validator raises the inconsistency error exactly when two input
entries canonicalize to the same roll with unequal values, and the error
carries the offending roll with both clashing values; on conflict-free
input it raises the missing-roll error exactly when some canonical roll of
the dice-count length is absent, naming an absent roll; on either error the
widget construction returns that error and produces no tables. -/
theorem c5_validation_errors (nd nf : ℕ) (input : List (Roll × ℚ)) :
    ((∃ r v1 v2, parse_roll_values nd nf input = Except.error (ParseError.inconsistent r v1 v2)) ↔
      HasConflict input) ∧
    (∀ r v1 v2, parse_roll_values nd nf input = Except.error (ParseError.inconsistent r v1 v2) →
      ∃ l1 q l2 p2 l3, input = l1 ++ q :: l2 ++ p2 :: l3 ∧
        sortRoll (q : Roll × ℚ).1 = r ∧ sortRoll (p2 : Roll × ℚ).1 = r ∧
        (q : Roll × ℚ).2 = v1 ∧ (p2 : Roll × ℚ).2 = v2 ∧ v1 ≠ v2) ∧
    (¬ HasConflict input →
      ((∃ r, parse_roll_values nd nf input = Except.error (ParseError.missing r)) ↔
        ∃ r ∈ iter_possible_rolls nd nf, ∀ p ∈ input, sortRoll p.1 ≠ r)) ∧
    (∀ r, parse_roll_values nd nf input = Except.error (ParseError.missing r) →
      r ∈ iter_possible_rolls nd nf ∧ ∀ p ∈ input, sortRoll p.1 ≠ r) ∧
    (∀ (nr : ℕ) (kao udp : Bool) (e : ParseError),
      parse_roll_values nd nf input = Except.error e →
      mkWidget nd nf nr kao udp input = Except.error e) := by
  have hrun := parseLoop_run input [] []
    (by intro s; rfl) List.Pairwise.nil
  rw [List.nil_append] at hrun
  have hnoincons : Consistent input →
      ∀ r v1 v2, parse_roll_values nd nf input ≠ Except.error (ParseError.inconsistent r v1 v2) := by
    intro hcons r v1 v2 herr
    obtain ⟨parsed, hok, _⟩ := hrun.1 hcons
    rw [parse_of_parseLoop_ok hok] at herr
    cases h2 : (iter_possible_rolls nd nf).find? (fun r => !(hasKey parsed r)) with
    | some r2 => rw [h2] at herr; simp at herr
    | none => rw [h2] at herr; simp at herr
  have habsent : ∀ (parsed : ValTable),
      (∀ s : Roll, getVal parsed s = (entryFor input s).map (fun p => p.2)) →
      ∀ r : Roll, hasKey parsed r = false ↔ ∀ p ∈ input, sortRoll p.1 ≠ r := by
    intro parsed hget r
    rw [← Bool.not_eq_true, hasKey, hget r]
    constructor
    · intro h1 p hp hps
      apply h1
      have h2 : (entryFor input r).isSome = true :=
        (entryFor_isSome input r).mpr ⟨p, hp, hps⟩
      cases h3 : entryFor input r with
      | none => rw [h3] at h2; simp at h2
      | some q => rfl
    · intro h1 h2
      cases h3 : entryFor input r with
      | none => rw [h3] at h2; simp at h2
      | some q =>
        obtain ⟨hqm, hqs⟩ := entryFor_mem h3
        exact h1 q hqm hqs
  constructor
  · -- inconsistency error iff a conflict exists
    constructor
    · rintro ⟨r, v1, v2, herr⟩
      by_contra hnc
      exact hnoincons ((consistent_iff_no_conflict input).mpr hnc) r v1 v2 herr
    · intro hc
      have hncons : ¬ Consistent input := by
        rw [consistent_iff_no_conflict]
        intro h
        exact h hc
      obtain ⟨r, v1, v2, l1, q, l2, p2, l3, herr, _⟩ := hrun.2 hncons
      exact ⟨r, v1, v2, parse_of_parseLoop_error herr⟩
  refine ⟨?_, ?_, ?_, ?_⟩
  · -- payload of the inconsistency error
    intro r v1 v2 herr
    by_cases hcons : Consistent input
    · exact absurd herr (hnoincons hcons r v1 v2)
    · obtain ⟨r2, w1, w2, l1, q, l2, p2, l3, herr2, hshape, hq, hp2, hv1, hv2, hne⟩ :=
        hrun.2 hcons
      rw [parse_of_parseLoop_error herr2] at herr
      simp only [Except.error.injEq, ParseError.inconsistent.injEq] at herr
      obtain ⟨he1, he2, he3⟩ := herr
      subst he1; subst he2; subst he3
      exact ⟨l1, q, l2, p2, l3, hshape, hq, hp2, hv1, hv2, hne⟩
  · -- missing-roll error iff some required roll is absent
    intro hnc
    have hcons : Consistent input := (consistent_iff_no_conflict input).mpr hnc
    obtain ⟨parsed, hok, hget⟩ := hrun.1 hcons
    constructor
    · rintro ⟨r, herr⟩
      rw [parse_of_parseLoop_ok hok] at herr
      cases h2 : (iter_possible_rolls nd nf).find? (fun r => !(hasKey parsed r)) with
      | none => rw [h2] at herr; simp at herr
      | some r2 =>
        rw [h2] at herr
        simp only [Except.error.injEq, ParseError.missing.injEq] at herr
        subst herr
        have h4 := List.find?_some h2
        have h5 := List.mem_of_find?_eq_some h2
        refine ⟨r2, h5, (habsent parsed hget r2).mp ?_⟩
        simpa using h4
    · rintro ⟨r, hmem, hab⟩
      have h4 : ∃ x ∈ iter_possible_rolls nd nf, (!(hasKey parsed x)) = true :=
        ⟨r, hmem, by rw [(habsent parsed hget r).mpr hab]; rfl⟩
      have h5 : ((iter_possible_rolls nd nf).find? (fun r => !(hasKey parsed r))).isSome :=
        List.find?_isSome.mpr h4
      cases h6 : (iter_possible_rolls nd nf).find? (fun r => !(hasKey parsed r)) with
      | none => rw [h6] at h5; simp at h5
      | some r2 =>
        refine ⟨r2, ?_⟩
        rw [parse_of_parseLoop_ok hok, h6]
  · -- payload of the missing-roll error
    intro r herr
    by_cases hcons : Consistent input
    · obtain ⟨parsed, hok, hget⟩ := hrun.1 hcons
      rw [parse_of_parseLoop_ok hok] at herr
      cases h2 : (iter_possible_rolls nd nf).find? (fun r => !(hasKey parsed r)) with
      | none => rw [h2] at herr; simp at herr
      | some r2 =>
        rw [h2] at herr
        simp only [Except.error.injEq, ParseError.missing.injEq] at herr
        subst herr
        have h4 := List.find?_some h2
        have h5 := List.mem_of_find?_eq_some h2
        exact ⟨h5, (habsent parsed hget r2).mp (by simpa using h4)⟩
    · obtain ⟨r2, w1, w2, l1, q, l2, p2, l3, herr2, _⟩ := hrun.2 hcons
      rw [parse_of_parseLoop_error herr2] at herr
      simp at herr
  · -- error propagation to the widget constructor
    intro nr kao udp e herr
    exact (mkWidget_error_iff nd nf nr kao udp input e).mpr herr

/-- Witness for C5: a conflicting input raises the inconsistency error. -/
theorem c5_validation_errors_witness :
    ∃ r v1 v2, parse_roll_values 1 2 [([1], 0), ([2, 1], 5), ([1, 2], 7)] =
      Except.error (ParseError.inconsistent r v1 v2) :=
  (c5_validation_errors 1 2 [([1], 0), ([2, 1], 5), ([1, 2], 7)]).1.mpr
    ⟨[([1], 0)], ([2, 1], 5), [], ([1, 2], 7), [], rfl, by decide, by decide⟩

/-! ### The backward induction driver -/

/-- Round tables counted backward from the terminal round: `roundTables j`
is the value table `j` backward-induction steps before the terminal one. -/
def roundTables (nd nf : ℕ) (kao udp : Bool) (parsed : ValTable) : ℕ → ValTable
  | 0 => parsed
  | j + 1 =>
    (compute_strategy_one_roll nd nf kao udp (roundTables nd nf kao udp parsed j)).1

theorem foldl_preserve {σ α : Type} {f : σ → α → σ} {Q : σ → Prop} :
    ∀ (l : List α) (init : σ), (∀ acc a, a ∈ l → Q acc → Q (f acc a)) → Q init →
      Q (List.foldl f init l) := by
  intro l
  induction l with
  | nil => intro init _ h; exact h
  | cons a rest ih =>
    intro init hstep h
    exact ih (f init a) (fun acc b hb hq => hstep acc b (List.mem_cons_of_mem _ hb) hq)
      (hstep init a (List.mem_cons_self _ _) h)

/-- What the driver writes: entry `i` of the finished round-value list is the
table `nr - 1 - i` steps before the terminal one, and entry `i` of the move
list is the move table computed together with it. -/
theorem compute_strategy_and_values_spec (nd nf : ℕ) (kao udp : Bool) (nr : ℕ)
    (parsed : ValTable) :
    (∀ i, i < nr →
      (compute_strategy_and_values nd nf kao udp nr
        ⟨List.replicate (nr - 1) [] ++ [parsed], List.replicate (nr - 1) []⟩).roll_values.get? i =
        some (roundTables nd nf kao udp parsed (nr - 1 - i))) ∧
    (∀ i, i + 1 < nr →
      (compute_strategy_and_values nd nf kao udp nr
        ⟨List.replicate (nr - 1) [] ++ [parsed], List.replicate (nr - 1) []⟩).optimal_moves.get? i =
        some ((compute_strategy_one_roll nd nf kao udp
          (roundTables nd nf kao udp parsed (nr - 1 - (i + 1)))).2)) := by
  have hmain := foldl_inv
    (fun (w : Widget) idx =>
      let res := compute_strategy_one_roll nd nf kao udp ((w.roll_values.get? (idx + 1)).getD [])
      { roll_values := w.roll_values.set idx res.1
        optimal_moves := w.optimal_moves.set idx res.2 })
    (fun done w =>
      w.roll_values.length = nr - 1 + 1 ∧ w.optimal_moves.length = nr - 1 ∧
      (∀ i, nr - 1 - done.length ≤ i → i < nr →
        w.roll_values.get? i = some (roundTables nd nf kao udp parsed (nr - 1 - i))) ∧
      (∀ i, nr - 1 - done.length ≤ i → i + 1 < nr →
        w.optimal_moves.get? i = some ((compute_strategy_one_roll nd nf kao udp
          (roundTables nd nf kao udp parsed (nr - 1 - (i + 1)))).2)))
    ((List.range (nr - 1)).reverse) []
    (⟨List.replicate (nr - 1) [] ++ [parsed], List.replicate (nr - 1) []⟩ : Widget)
    (by
      refine ⟨by simp, by simp, ?_, ?_⟩
      · intro i h1 h2
        simp only [List.length_nil, Nat.sub_zero] at h1
        have hi : i = nr - 1 := by omega
        subst hi
        rw [List.get?_eq_getElem?, List.getElem?_append_right (by simp)]
        simp only [List.length_replicate, Nat.sub_self]
        rfl
      · intro i h1 h2
        simp only [List.length_nil, Nat.sub_zero] at h1
        omega)
    (by
      intro d a r w2 he hinv
      rw [List.nil_append] at he
      obtain ⟨ha, halt⟩ := reverse_range_decomp he
      obtain ⟨hl1, hl2, hrv, hom⟩ := hinv
      have ha2 : a = nr - 2 - d.length := by omega
      have hanr : a + 1 < nr := by omega
      have hread : (w2.roll_values.get? (a + 1)).getD [] =
          roundTables nd nf kao udp parsed (nr - 1 - (a + 1)) := by
        rw [hrv (a + 1) (by omega) (by omega)]
        rfl
      refine ⟨by simpa using hl1, by simpa using hl2, ?_, ?_⟩
      · intro i h1 h2
        simp only [List.length_append, List.length_cons, List.length_nil] at h1
        by_cases hia : i = a
        · subst hia
          simp only []
          rw [List.get?_eq_getElem?, List.getElem?_set]
          rw [if_pos rfl, if_pos (by omega)]
          rw [hread]
          have h4 : nr - 1 - i = (nr - 1 - (i + 1)) + 1 := by omega
          rw [h4, roundTables]
        · simp only []
          rw [List.get?_eq_getElem?, List.getElem?_set, if_neg (fun h => hia h.symm),
            ← List.get?_eq_getElem?]
          exact hrv i (by omega) h2
      · intro i h1 h2
        simp only [List.length_append, List.length_cons, List.length_nil] at h1
        by_cases hia : i = a
        · subst hia
          simp only []
          rw [List.get?_eq_getElem?, List.getElem?_set]
          rw [if_pos rfl, if_pos (by omega)]
          rw [hread]
        · simp only []
          rw [List.get?_eq_getElem?, List.getElem?_set, if_neg (fun h => hia h.symm),
            ← List.get?_eq_getElem?]
          exact hom i (by omega) h2)
  rw [List.nil_append] at hmain
  obtain ⟨_, _, hrv, hom⟩ := hmain
  constructor
  · intro i h2
    rw [compute_strategy_and_values]
    exact hrv i (by simp) h2
  · intro i h2
    rw [compute_strategy_and_values]
    exact hom i (by simp) h2

/-! ### Facts available after a successful parse -/

theorem parseLoop_ok_consistent {input : List (Roll × ℚ)} {parsed : ValTable}
    (hok : parseLoop [] input = Except.ok parsed) : Consistent input := by
  by_contra hnc
  obtain ⟨r, v1, v2, l1, q, l2, p2, l3, herr, _⟩ :=
    (parseLoop_run input [] [] (fun s => rfl) List.Pairwise.nil).2 (by simpa using hnc)
  rw [hok] at herr
  exact Except.noConfusion herr

theorem mkWidget_ok {nd nf nr : ℕ} {kao udp : Bool} {input : List (Roll × ℚ)} {w : Widget}
    (h : mkWidget nd nf nr kao udp input = Except.ok w) :
    ∃ parsed, parse_roll_values nd nf input = Except.ok parsed ∧
      w = compute_strategy_and_values nd nf kao udp nr
        ⟨List.replicate (nr - 1) [] ++ [parsed], List.replicate (nr - 1) []⟩ := by
  rw [mkWidget] at h
  cases hp : parse_roll_values nd nf input with
  | error e =>
    rw [hp] at h
    exact Except.noConfusion h
  | ok parsed =>
    rw [hp] at h
    simp only [Except.ok.injEq] at h
    exact ⟨parsed, rfl, h.symm⟩

theorem parse_ok_props {nd nf : ℕ} {input : List (Roll × ℚ)} {parsed : ValTable}
    (hok : parse_roll_values nd nf input = Except.ok parsed) :
    (∀ s : Roll, getVal parsed s = (entryFor input s).map (fun p => p.2)) ∧
    (∀ r ∈ iter_possible_rolls nd nf, (getVal parsed r).isSome = true) := by
  cases hloop : parseLoop [] input with
  | error e =>
    rw [parse_of_parseLoop_error hloop] at hok
    exact Except.noConfusion hok
  | ok parsed2 =>
    rw [parse_of_parseLoop_ok hloop] at hok
    cases hfind : (iter_possible_rolls nd nf).find? (fun r => !(hasKey parsed2 r)) with
    | some r =>
      rw [hfind] at hok
      simp at hok
    | none =>
      rw [hfind] at hok
      simp only [Except.ok.injEq] at hok
      subst hok
      have hcons : Consistent input := parseLoop_ok_consistent hloop
      obtain ⟨parsed3, hok3, hget⟩ :=
        (parseLoop_run input [] [] (fun s => rfl) List.Pairwise.nil).1 (by simpa using hcons)
      rw [hloop] at hok3
      simp only [Except.ok.injEq] at hok3
      subst hok3
      refine ⟨by simpa using hget, ?_⟩
      intro r hr
      have h4 := List.find?_eq_none.mp hfind r hr
      simp only [hasKey] at h4
      rw [Option.isSome_iff_ne_none]
      simpa using h4

/-! ### One backward-induction step, through the dynamic-programming switch -/

theorem getVal_roundTables_succ {nd nf : ℕ} (hf : 1 ≤ nf) (kao udp : Bool)
    (parsed : ValTable) (j : ℕ) :
    ∀ key : Roll, getVal (roundTables nd nf kao udp parsed (j + 1)) key =
      if Canonical nf key ∧ key.length = nd
      then some (maxOverSubrolls
        (fun k => (getVal (compute_values_given_kept nd nf
          (roundTables nd nf kao udp parsed j)) k).getD 0) key)
      else none := by
  intro key
  rw [roundTables, compute_strategy_one_roll, compute_from_conditional_values]
  cases udp with
  | false =>
    rw [if_neg (by simp)]
    exact getVal_compute_from_cond_fst hf kao _ key
  | true =>
    rw [if_pos rfl]
    exact getVal_compute_from_cond_dp_fst hf kao _ key

theorem roundTables_isSome {nd nf : ℕ} (hf : 1 ≤ nf) (kao udp : Bool)
    {input : List (Roll × ℚ)} {parsed : ValTable}
    (hok : parse_roll_values nd nf input = Except.ok parsed) (j : ℕ)
    (r : Roll) (hc : Canonical nf r) (hl : r.length = nd) :
    (getVal (roundTables nd nf kao udp parsed j) r).isSome = true := by
  cases j with
  | zero =>
    rw [roundTables]
    exact (parse_ok_props hok).2 r ((mem_iter_possible_rolls hf r).mpr ⟨hl, hc⟩)
  | succ j =>
    rw [getVal_roundTables_succ hf kao udp parsed j r, if_pos ⟨hc, hl⟩]
    rfl

theorem c8_step {nd nf : ℕ} (hf : 1 ≤ nf) (kao udp : Bool)
    {input : List (Roll × ℚ)} {parsed : ValTable}
    (hok : parse_roll_values nd nf input = Except.ok parsed) (j : ℕ)
    {r : Roll} (hc : Canonical nf r) (hl : r.length = nd) {v : ℚ}
    (hv : getVal (roundTables nd nf kao udp parsed j) r = some v) :
    ∃ v2, getVal (roundTables nd nf kao udp parsed (j + 1)) r = some v2 ∧ v ≤ v2 := by
  rw [getVal_roundTables_succ hf kao udp parsed j r, if_pos ⟨hc, hl⟩]
  refine ⟨_, rfl, ?_⟩
  have hbase := maxOverSubrolls_base_le
    (fun k => (getVal (compute_values_given_kept nd nf
      (roundTables nd nf kao udp parsed j)) k).getD 0) r
  have hcvk := getVal_compute_values_given_kept hf (roundTables nd nf kao udp parsed j)
    (fun s hs hsl => roundTables_isSome hf kao udp hok j s hs hsl) r
  rw [if_neg (by intro h2; omega)] at hcvk
  calc v = (getVal (compute_values_given_kept nd nf
        (roundTables nd nf kao udp parsed j)) r).getD 0 := by rw [hcvk, hv]; rfl
    _ ≤ _ := hbase

/-! ### Claim C8: an extra round never hurts -/

/-- C8: holding the configuration and terminal table fixed, for every round
count of at least one, and every canonical roll of the dice-count length,
the round-0 value computed with one more round is at least the round-0
value computed without it. -/
theorem c8_round0_monotone (nd nf : ℕ) (hf : 1 ≤ nf) (kao udp : Bool)
    (input : List (Roll × ℚ)) (m : ℕ) (hm : 1 ≤ m) (w1 w2 : Widget)
    (h1 : mkWidget nd nf m kao udp input = Except.ok w1)
    (h2 : mkWidget nd nf (m + 1) kao udp input = Except.ok w2)
    (r : Roll) (hc : Canonical nf r) (hl : r.length = nd) :
    ∃ t1 t2 v1 v2,
      w1.roll_values.get? 0 = some t1 ∧ w2.roll_values.get? 0 = some t2 ∧
      getVal t1 r = some v1 ∧ getVal t2 r = some v2 ∧ v1 ≤ v2 := by
  obtain ⟨p1, hp1, he1⟩ := mkWidget_ok h1
  obtain ⟨p2, hp2, he2⟩ := mkWidget_ok h2
  rw [hp1] at hp2
  simp only [Except.ok.injEq] at hp2
  subst hp2
  have hs1 := (compute_strategy_and_values_spec nd nf kao udp m p1).1 0 (by omega)
  have hs2 := (compute_strategy_and_values_spec nd nf kao udp (m + 1) p1).1 0 (by omega)
  rw [← he1] at hs1
  rw [← he2] at hs2
  have hv1 : (getVal (roundTables nd nf kao udp p1 (m - 1 - 0)) r).isSome = true :=
    roundTables_isSome hf kao udp hp1 _ r hc hl
  obtain ⟨v1, hv1e⟩ := Option.isSome_iff_exists.mp hv1
  obtain ⟨v2, hv2e, hle⟩ := c8_step hf kao udp hp1 (m - 1 - 0) hc hl hv1e
  have hidx : m + 1 - 1 - 0 = (m - 1 - 0) + 1 := by omega
  refine ⟨_, _, v1, v2, hs1, ?_, hv1e, hv2e, hle⟩
  rw [← hidx]
  exact hs2

/-- Witness for C8: one die with two faces, terminal values 0 and 10, round
counts one and two; the value of the roll `(2,)` stays 10. -/
theorem c8_round0_monotone_witness :
    ∃ t1 t2 v1 v2,
      ({ roll_values := [[([1], 0), ([2], 10)]],
         optimal_moves := [] } : Widget).roll_values.get? 0 = some t1 ∧
      ({ roll_values := [[([1], 5), ([2], 10)], [([1], 0), ([2], 10)]],
         optimal_moves := [[([1], [[]]), ([2], [[2]])]] } : Widget).roll_values.get? 0 = some t2 ∧
      getVal t1 [2] = some v1 ∧ getVal t2 [2] = some v2 ∧ v1 ≤ v2 :=
  c8_round0_monotone 1 2 (by decide) false true [([1], 0), ([2], 10)] 1 (by decide)
    _ _ (by with_unfolding_all rfl) (by with_unfolding_all rfl) [2] (by decide) rfl

/-! ### Claim C9: canonical keys everywhere -/

/-- Keys of a table are ascending-sorted, and no two entries of the table
carry keys that are equal as multisets. -/
def TableSortedKeys {α : Type} (t : List (Roll × α)) : Prop :=
  (∀ k ∈ keysOf t, List.Sorted (· ≤ ·) k) ∧
  (keysOf t).Pairwise (fun a b => ¬ List.Perm a b)

/-- Every roll inside every move collection of a move table is sorted. -/
def MovesSorted (t : MoveTable) : Prop :=
  ∀ p ∈ t, ∀ m ∈ p.2, List.Sorted (· ≤ ·) m

theorem tableSortedKeys_nil {α : Type} : TableSortedKeys ([] : List (Roll × α)) :=
  ⟨fun k hk => absurd hk (List.not_mem_nil k), List.Pairwise.nil⟩

theorem tableSortedKeys_setVal {α : Type} {t : List (Roll × α)} (ht : TableSortedKeys t)
    {k : Roll} (hk : List.Sorted (· ≤ ·) k) (v : α) : TableSortedKeys (setVal t k v) := by
  by_cases hmem : k ∈ keysOf t
  · rw [TableSortedKeys, keysOf_setVal_of_mem t k v hmem]
    exact ht
  · rw [TableSortedKeys, keysOf_setVal_of_not_mem t k v hmem]
    constructor
    · intro k2 hk2
      rcases List.mem_append.mp hk2 with h2 | h2
      · exact ht.1 k2 h2
      · rw [List.mem_singleton.mp h2]
        exact hk
    · rw [List.pairwise_append]
      refine ⟨ht.2, List.pairwise_singleton _ _, ?_⟩
      intro a ha b hb hperm
      rw [List.mem_singleton.mp hb] at hperm
      have he : a = k := List.eq_of_perm_of_sorted hperm (ht.1 a ha) hk
      exact hmem (he ▸ ha)

theorem mem_setVal {α : Type} : ∀ (t : List (Roll × α)) (k : Roll) (v : α) (q : Roll × α),
    q ∈ setVal t k v → q = (k, v) ∨ q ∈ t := by
  intro t k v
  induction t with
  | nil =>
    intro q hq
    rw [setVal] at hq
    exact Or.inl (List.mem_singleton.mp hq)
  | cons p rest ih =>
    obtain ⟨pk, pv⟩ := p
    intro q hq
    rw [setVal] at hq
    by_cases h : pk = k
    · rw [if_pos h] at hq
      rcases List.mem_cons.mp hq with h2 | h2
      · exact Or.inl (by rw [h2, h])
      · exact Or.inr (List.mem_cons_of_mem _ h2)
    · rw [if_neg h] at hq
      rcases List.mem_cons.mp hq with h2 | h2
      · exact Or.inr (by rw [h2]; exact List.mem_cons_self _ _)
      · rcases ih q h2 with h3 | h3
        · exact Or.inl h3
        · exact Or.inr (List.mem_cons_of_mem _ h3)

theorem mem_of_getVal {α : Type} : ∀ {t : List (Roll × α)} {k : Roll} {v : α},
    getVal t k = some v → (k, v) ∈ t := by
  intro t
  induction t with
  | nil =>
    intro k v h
    rw [getVal] at h
    exact Option.noConfusion h
  | cons p rest ih =>
    obtain ⟨pk, pv⟩ := p
    intro k v h
    rw [getVal] at h
    by_cases h2 : pk = k
    · rw [if_pos h2] at h
      simp only [Option.some.injEq] at h
      subst h
      subst h2
      exact List.mem_cons_self _ _
    · rw [if_neg h2] at h
      exact List.mem_cons_of_mem _ (ih h)

theorem movesSorted_setVal {t : MoveTable} (ht : MovesSorted t) {k : Roll} {ms : List Roll}
    (hms : ∀ m ∈ ms, List.Sorted (· ≤ ·) m) : MovesSorted (setVal t k ms) := by
  intro p hp
  rcases mem_setVal t k ms p hp with h | h
  · subst h
    exact hms
  · exact ht p h

theorem getD_moves_sorted {t : MoveTable} (ht : MovesSorted t) (k : Roll) :
    ∀ m ∈ (getVal t k).getD [], List.Sorted (· ≤ ·) m := by
  intro m hm
  cases hg : getVal t k with
  | none =>
    rw [hg] at hm
    exact absurd hm (List.not_mem_nil m)
  | some ms =>
    rw [hg] at hm
    exact ht (k, ms) (mem_of_getVal hg) m hm

theorem store_getD_sorted {store : List (List Roll)}
    (h : ∀ cell ∈ store, ∀ m ∈ cell, List.Sorted (· ≤ ·) m) (i : ℕ) :
    ∀ m ∈ (store.get? i).getD [], List.Sorted (· ≤ ·) m := by
  intro m hm
  cases hg : store.get? i with
  | none =>
    rw [hg] at hm
    exact absurd hm (List.not_mem_nil m)
  | some cell =>
    rw [hg] at hm
    exact h cell (List.get?_mem hg) m hm

theorem keysOf_map_pair {α : Type} (l : List Roll) (g : Roll → α) :
    keysOf (l.map (fun r => (r, g r))) = l := by
  induction l with
  | nil => rfl
  | cons a rest ih => simp only [List.map_cons, keysOf_cons, ih]

theorem keysOf_map_value {α β : Type} (t : List (Roll × α)) (g : Roll × α → β) :
    keysOf (t.map (fun p => (p.1, g p))) = keysOf t := by
  rw [keysOf, keysOf, List.map_map]
  rfl

theorem iter_pairwise_not_perm {n f : ℕ} (hf : 1 ≤ f) :
    (iter_possible_rolls n f).Pairwise (fun a b => ¬ List.Perm a b) := by
  refine List.Pairwise.imp_of_mem ?_ (pairwise_iter_possible_rolls hf)
  intro a b ha hb hlex hperm
  have h1 := ((mem_iter_possible_rolls hf a).mp ha).2.1
  have h2 := ((mem_iter_possible_rolls hf b).mp hb).2.1
  rw [List.eq_of_perm_of_sorted hperm h1 h2] at hlex
  exact lexLt_irrefl b hlex

theorem tableSortedKeys_iter_map {α : Type} {n f : ℕ} (hf : 1 ≤ f)
    (g : Roll → α) : TableSortedKeys ((iter_possible_rolls n f).map (fun r => (r, g r))) := by
  rw [TableSortedKeys, keysOf_map_pair]
  exact ⟨fun k hk => ((mem_iter_possible_rolls hf k).mp hk).2.1, iter_pairwise_not_perm hf⟩

theorem tableSortedKeys_filter {α : Type} {t : List (Roll × α)} (h : TableSortedKeys t)
    (p : Roll × α → Bool) : TableSortedKeys (t.filter p) := by
  have hsub : List.Sublist (keysOf (t.filter p)) (keysOf t) :=
    List.Sublist.map _ (List.filter_sublist t)
  exact ⟨fun k hk => h.1 k (hsub.subset hk), h.2.sublist hsub⟩

theorem parseLoop_sortedKeys :
    ∀ (rest : List (Roll × ℚ)) (acc parsed : ValTable),
      TableSortedKeys acc → parseLoop acc rest = Except.ok parsed →
      TableSortedKeys parsed := by
  intro rest
  induction rest with
  | nil =>
    intro acc parsed ha h
    rw [parseLoop] at h
    simp only [Except.ok.injEq] at h
    subst h
    exact ha
  | cons p rest2 ih =>
    intro acc parsed ha h
    cases hg : getVal acc (sortRoll p.1) with
    | some pre =>
      have hstep : parseLoop acc (p :: rest2) =
          if pre ≠ p.2 then Except.error (ParseError.inconsistent (sortRoll p.1) pre p.2)
          else parseLoop (setVal acc (sortRoll p.1) p.2) rest2 := by
        rw [parseLoop, hg]
      rw [hstep] at h
      by_cases hne : pre ≠ p.2
      · rw [if_pos hne] at h
        exact Except.noConfusion h
      · rw [if_neg hne] at h
        exact ih _ _ (tableSortedKeys_setVal ha (sortRoll_sorted _) _) h
    | none =>
      have hstep : parseLoop acc (p :: rest2) =
          parseLoop (setVal acc (sortRoll p.1) p.2) rest2 := by
        rw [parseLoop, hg]
      rw [hstep] at h
      exact ih _ _ (tableSortedKeys_setVal ha (sortRoll_sorted _) _) h

theorem parse_ok_sortedKeys {nd nf : ℕ} {input : List (Roll × ℚ)} {parsed : ValTable}
    (hok : parse_roll_values nd nf input = Except.ok parsed) : TableSortedKeys parsed := by
  cases hloop : parseLoop [] input with
  | error e =>
    rw [parse_of_parseLoop_error hloop] at hok
    exact Except.noConfusion hok
  | ok parsed2 =>
    rw [parse_of_parseLoop_ok hloop] at hok
    cases hfind : (iter_possible_rolls nd nf).find? (fun r => !(hasKey parsed2 r)) with
    | some r =>
      rw [hfind] at hok
      simp at hok
    | none =>
      rw [hfind] at hok
      simp only [Except.ok.injEq] at hok
      subst hok
      exact parseLoop_sortedKeys input [] parsed2 tableSortedKeys_nil hloop

theorem cvk_sortedKeys {nd nf : ℕ} (hf : 1 ≤ nf) {next : ValTable}
    (hn : TableSortedKeys next) : TableSortedKeys (compute_values_given_kept nd nf next) := by
  rw [compute_values_given_kept]
  refine foldl_preserve _ _ ?_ hn
  intro acc nk hnk hacc
  refine foldl_preserve _ _ ?_ hacc
  intro acc2 kept hkept hacc2
  exact tableSortedKeys_setVal hacc2 (((mem_iter_possible_rolls hf kept).mp hkept).2.1) _

/-- The canonicity bundle for a resolver state: both tables keep sorted,
multiset-distinct keys and the move collections hold sorted rolls. -/
def StratTablesOk (st : ValTable × MoveTable) : Prop :=
  TableSortedKeys st.1 ∧ TableSortedKeys st.2 ∧ MovesSorted st.2

theorem compute_from_cond_sortedKeys {nd nf : ℕ} (hf : 1 ≤ nf) (kao : Bool) (vgk : ValTable) :
    StratTablesOk (compute_from_cond nd nf kao vgk) := by
  rw [compute_from_cond]
  refine foldl_preserve _ _ ?_ ?_
  · intro st nk hnk hq
    refine foldl_preserve _ _ ?_ hq
    intro st2 kept hkept hq2
    have hkeptsorted : List.Sorted (· ≤ ·) kept :=
      ((mem_iter_possible_rolls hf kept).mp hkept).2.1
    refine foldl_preserve _ _ ?_ hq2
    intro st3 other hother hq3
    simp only []
    split
    · exact ⟨tableSortedKeys_setVal hq3.1 (sortRoll_sorted _) _,
        tableSortedKeys_setVal hq3.2.1 (sortRoll_sorted _) _,
        movesSorted_setVal hq3.2.2 (fun m hm => by
          rw [List.mem_singleton.mp hm]; exact hkeptsorted)⟩
    · split
      · refine ⟨hq3.1, tableSortedKeys_setVal hq3.2.1 (sortRoll_sorted _) _,
          movesSorted_setVal hq3.2.2 ?_⟩
        intro m hm
        rcases List.mem_append.mp hm with h2 | h2
        · exact getD_moves_sorted hq3.2.2 _ m h2
        · rw [List.mem_singleton.mp h2]
          exact hkeptsorted
      · exact hq3
  · exact ⟨tableSortedKeys_iter_map hf _, tableSortedKeys_iter_map hf _,
      fun p hp m hm => by
        obtain ⟨r, hr, he⟩ := List.mem_map.mp hp
        rw [← he] at hm
        simp only [] at hm
        rw [List.mem_singleton.mp hm]
        exact ((mem_iter_possible_rolls hf r).mp hr).2.1⟩

/-- The canonicity bundle for a DP state: both tables keep sorted,
multiset-distinct keys and every stored move cell holds sorted rolls. -/
def DpStateOk (st : DpState) : Prop :=
  TableSortedKeys st.roll_values ∧ TableSortedKeys st.move_ref ∧
  ∀ cell ∈ st.store, ∀ m ∈ cell, List.Sorted (· ≤ ·) m

theorem dpLayerInit_ok {nf : ℕ} (hf : 1 ≤ nf) (vgk : ValTable) (m : ℕ) {st : DpState}
    (h : DpStateOk st) : DpStateOk (dpLayerInit nf vgk m st) := by
  rw [dpLayerInit]
  refine foldl_preserve _ _ ?_ h
  intro s kept hkept hs
  have hks : List.Sorted (· ≤ ·) kept := ((mem_iter_possible_rolls hf kept).mp hkept).2.1
  refine ⟨tableSortedKeys_setVal hs.1 hks _, tableSortedKeys_setVal hs.2.1 hks _, ?_⟩
  intro cell hcell m2 hm2
  rcases List.mem_append.mp hcell with h2 | h2
  · exact hs.2.2 cell h2 m2 hm2
  · rw [List.mem_singleton.mp h2] at hm2
    rw [List.mem_singleton.mp hm2]
    exact hks

theorem dpRelax_ok {nf : ℕ} (kao : Bool) (k : ℕ) {st : DpState}
    (h : DpStateOk st) : DpStateOk (dpRelax nf kao k st) := by
  rw [dpRelax]
  refine foldl_preserve _ _ ?_ h
  intro s prev_kept hpk hs
  refine foldl_preserve _ _ ?_ hs
  intro s2 die hdie hs2
  simp only []
  split
  · exact ⟨tableSortedKeys_setVal hs2.1 (sortRoll_sorted _) _,
      tableSortedKeys_setVal hs2.2.1 (sortRoll_sorted _) _, hs2.2.2⟩
  · split
    · refine ⟨hs2.1, hs2.2.1, ?_⟩
      intro cell hcell m2 hm2
      rcases List.mem_or_eq_of_mem_set hcell with h2 | h2
      · exact hs2.2.2 cell h2 m2 hm2
      · subst h2
        rw [setUnion] at hm2
        rcases List.mem_append.mp hm2 with h3 | h3
        · exact store_getD_sorted hs2.2.2 _ m2 h3
        · exact store_getD_sorted hs2.2.2 _ m2 (List.mem_of_mem_filter h3)
    · exact hs2

theorem compute_from_cond_dp_sortedKeys {nd nf : ℕ} (hf : 1 ≤ nf) (kao : Bool)
    (vgk : ValTable) : StratTablesOk (compute_from_cond_dp nd nf kao vgk) := by
  have hfin : DpStateOk ((List.range nd).foldl
      (fun st k => dpRelax nf kao (k + 1) (dpLayerInit nf vgk (k + 1) st))
      { roll_values := [([], (getVal vgk []).getD 0)]
        move_ref := [([], 0)]
        store := [[([] : Roll)]] }) := by
    refine foldl_preserve _ _ ?_ ?_
    · intro st k hk h
      exact dpRelax_ok kao (k + 1) (dpLayerInit_ok hf vgk (k + 1) h)
    · refine ⟨?_, ?_, ?_⟩
      · exact ⟨fun k hk => by rw [List.mem_singleton.mp hk]; exact List.sorted_nil,
          List.pairwise_singleton _ _⟩
      · exact ⟨fun k hk => by rw [List.mem_singleton.mp hk]; exact List.sorted_nil,
          List.pairwise_singleton _ _⟩
      · intro cell hcell m hm
        rw [List.mem_singleton.mp hcell] at hm
        rw [List.mem_singleton.mp hm]
        exact List.sorted_nil
  rw [compute_from_cond_dp]
  refine ⟨tableSortedKeys_filter hfin.1 _, ?_, ?_⟩
  · rw [TableSortedKeys, keysOf_map_value]
    exact tableSortedKeys_filter hfin.2.1 _
  · intro q hq
    obtain ⟨p, hp, he⟩ := List.mem_map.mp hq
    subst he
    intro m hm
    exact store_getD_sorted hfin.2.2 _ m hm

/-- C9: every table the engine produces — the parsed terminal table, every
conditional value table, every round value table and every optimal move
table — keeps only ascending-sorted tuples as keys (and as elements of the
move collections), and no two keys of one table are equal as multisets. -/
theorem c9_canonical_tables (nd nf : ℕ) (hf : 1 ≤ nf) (kao udp : Bool)
    (input : List (Roll × ℚ)) (parsed : ValTable)
    (hok : parse_roll_values nd nf input = Except.ok parsed) :
    TableSortedKeys parsed ∧
    (∀ j : ℕ, TableSortedKeys
      (compute_values_given_kept nd nf (roundTables nd nf kao udp parsed j))) ∧
    (∀ j : ℕ, TableSortedKeys (roundTables nd nf kao udp parsed j)) ∧
    (∀ j : ℕ,
      TableSortedKeys ((compute_strategy_one_roll nd nf kao udp
        (roundTables nd nf kao udp parsed j)).2) ∧
      MovesSorted ((compute_strategy_one_roll nd nf kao udp
        (roundTables nd nf kao udp parsed j)).2)) := by
  have hp : TableSortedKeys parsed := parse_ok_sortedKeys hok
  have hrt : ∀ j, TableSortedKeys (roundTables nd nf kao udp parsed j) := by
    intro j
    cases j with
    | zero =>
      rw [roundTables]
      exact hp
    | succ j =>
      rw [roundTables, compute_strategy_one_roll, compute_from_conditional_values]
      cases udp with
      | false =>
        rw [if_neg (by simp)]
        exact (compute_from_cond_sortedKeys hf kao _).1
      | true =>
        rw [if_pos rfl]
        exact (compute_from_cond_dp_sortedKeys hf kao _).1
  refine ⟨hp, fun j => cvk_sortedKeys hf (hrt j), hrt, ?_⟩
  intro j
  rw [compute_strategy_one_roll, compute_from_conditional_values]
  cases udp with
  | false =>
    rw [if_neg (by simp)]
    exact ⟨(compute_from_cond_sortedKeys hf kao _).2.1,
      (compute_from_cond_sortedKeys hf kao _).2.2⟩
  | true =>
    rw [if_pos rfl]
    exact ⟨(compute_from_cond_dp_sortedKeys hf kao _).2.1,
      (compute_from_cond_dp_sortedKeys hf kao _).2.2⟩

/-- Witness for C9 at the one-die, two-face configuration: the parsed
terminal table and the computed round-0 table keep sorted keys. -/
theorem c9_canonical_tables_witness :
    TableSortedKeys [([1], (0 : ℚ)), ([2], 10)] ∧
    TableSortedKeys (roundTables 1 2 false true [([1], 0), ([2], 10)] 1) :=
  ⟨(c9_canonical_tables 1 2 (by decide) false true [([1], 0), ([2], 10)]
      [([1], 0), ([2], 10)] (by with_unfolding_all rfl)).1,
   (c9_canonical_tables 1 2 (by decide) false true [([1], 0), ([2], 10)]
      [([1], 0), ([2], 10)] (by with_unfolding_all rfl)).2.2.1 1⟩

/-! ### Claim C10: extra entries whose keys have other lengths -/

/-- C10 counterexample: with one die and one face the required length-1
rolls are fully and consistently supplied, both extra entries canonicalize
to the length-2 roll `[1, 2]`, yet validation rejects the input: the two
extra entries conflict with each other, so adding entries of non-dice-count
lengths can raise the inconsistency error. -/
theorem c10_extras_counterexample :
    (∀ p ∈ [(([1], 0) : Roll × ℚ)], (sortRoll p.1).length = 1) ∧
    parse_roll_values 1 1 [([1], 0)] = Except.ok [([1], 0)] ∧
    (∀ p ∈ [(([1, 2], 5) : Roll × ℚ), ([2, 1], 7)], (sortRoll p.1).length ≠ 1) ∧
    parse_roll_values 1 1 ([([1], 0)] ++ [([1, 2], 5), ([2, 1], 7)]) =
      Except.error (ParseError.inconsistent [1, 2] 5 7) ∧
    mkWidget 1 1 2 true true ([([1], 0)] ++ [([1, 2], 5), ([2, 1], 7)]) =
      Except.error (ParseError.inconsistent [1, 2] 5 7) :=
  ⟨by decide, by with_unfolding_all rfl, by decide,
   by with_unfolding_all rfl, by with_unfolding_all rfl⟩

theorem find?_append_of_none {α : Type} {p : α → Bool} :
    ∀ {l1 : List α}, (∀ x ∈ l1, p x = false) →
      ∀ l2 : List α, (l1 ++ l2).find? p = l2.find? p := by
  intro l1
  induction l1 with
  | nil =>
    intro h l2
    rw [List.nil_append]
  | cons a rest ih =>
    intro h l2
    rw [List.cons_append,
      List.find?_cons_of_neg _ (by rw [h a (List.mem_cons_self _ _)]; simp)]
    exact ih (fun x hx => h x (List.mem_cons_of_mem _ hx)) l2

theorem entryFor_append_of_ne {base extras : List (Roll × ℚ)} {s : Roll}
    (h : ∀ p ∈ extras, sortRoll p.1 ≠ s) :
    entryFor (base ++ extras) s = entryFor base s := by
  rw [entryFor, entryFor, List.reverse_append]
  refine find?_append_of_none ?_ _
  intro p hp
  have h2 := h p (List.mem_reverse.mp hp)
  simp [h2]

theorem parse_ok_of {nd nf : ℕ} {input : List (Roll × ℚ)}
    (hcons : Consistent input)
    (htot : ∀ r ∈ iter_possible_rolls nd nf, ∃ p ∈ input, sortRoll p.1 = r) :
    ∃ parsed, parse_roll_values nd nf input = Except.ok parsed ∧
      ∀ s : Roll, getVal parsed s = (entryFor input s).map (fun p => p.2) := by
  obtain ⟨parsed, hok, hget⟩ :=
    (parseLoop_run input [] [] (fun s => rfl) List.Pairwise.nil).1 (by simpa using hcons)
  have hget2 : ∀ s : Roll, getVal parsed s = (entryFor input s).map (fun p => p.2) := by
    simpa using hget
  refine ⟨parsed, ?_, hget2⟩
  rw [parse_of_parseLoop_ok hok]
  have hnone : (iter_possible_rolls nd nf).find? (fun r => !(hasKey parsed r)) = none := by
    rw [List.find?_eq_none]
    intro r hr h3
    obtain ⟨p, hp, hps⟩ := htot r hr
    have h2 : (entryFor input r).isSome = true := (entryFor_isSome input r).mpr ⟨p, hp, hps⟩
    cases h4 : entryFor input r with
    | none =>
      rw [h4] at h2
      simp at h2
    | some q =>
      rw [hasKey, hget2 r, h4] at h3
      simp at h3
  rw [hnone]

theorem vgkFun_congr {nf : ℕ} {c c2 : Roll → ℚ} :
    ∀ (fuel : ℕ) (kept : Roll),
      (∀ r : Roll, List.Sorted (· ≤ ·) r → r.length = fuel + kept.length → c r = c2 r) →
      List.Sorted (· ≤ ·) kept →
      vgkFun nf c fuel kept = vgkFun nf c2 fuel kept := by
  intro fuel
  induction fuel with
  | zero =>
    intro kept h hk
    rw [vgkFun, vgkFun]
    exact h kept hk (by omega)
  | succ fuel ih =>
    intro kept h hk
    rw [vgkFun, vgkFun]
    congr 1
    congr 1
    apply List.map_congr_left
    intro i hi
    refine ih (sortRoll (kept ++ [i + 1])) ?_ (sortRoll_sorted _)
    intro r hr hrl
    refine h r hr ?_
    rw [length_sortRoll_append] at hrl
    omega

theorem foldl_congr_mem {σ α : Type} {f g : σ → α → σ} :
    ∀ (l : List α) (init : σ), (∀ acc a, a ∈ l → f acc a = g acc a) →
      l.foldl f init = l.foldl g init := by
  intro l
  induction l with
  | nil =>
    intro init h
    rfl
  | cons a rest ih =>
    intro init h
    rw [List.foldl_cons, List.foldl_cons, h init a (List.mem_cons_self _ _)]
    exact ih _ (fun acc b hb => h acc b (List.mem_cons_of_mem _ hb))

theorem compute_from_cond_congr {nd nf : ℕ} (hf : 1 ≤ nf) (kao : Bool) {v1 v2 : ValTable}
    (h : ∀ k : Roll, Canonical nf k → k.length ≤ nd → getVal v1 k = getVal v2 k) :
    compute_from_cond nd nf kao v1 = compute_from_cond nd nf kao v2 := by
  rw [compute_from_cond, compute_from_cond]
  have ht0 : (iter_possible_rolls nd nf).map (fun r => (r, (getVal v1 r).getD 0)) =
      (iter_possible_rolls nd nf).map (fun r => (r, (getVal v2 r).getD 0)) := by
    apply List.map_congr_left
    intro r hr
    obtain ⟨hl, hc⟩ := (mem_iter_possible_rolls hf r).mp hr
    rw [h r hc (by omega)]
  rw [ht0]
  apply foldl_congr_mem
  intro st nk hnk
  have hnklt : nk < nd := List.mem_range.mp (List.mem_reverse.mp hnk)
  apply foldl_congr_mem
  intro st2 kept hkept
  obtain ⟨hkl, hkc⟩ := (mem_iter_possible_rolls hf kept).mp hkept
  rw [h kept hkc (by omega)]

theorem dpLayerInit_congr {nd nf : ℕ} (hf : 1 ≤ nf) {v1 v2 : ValTable}
    (h : ∀ k : Roll, Canonical nf k → k.length ≤ nd → getVal v1 k = getVal v2 k)
    {m : ℕ} (hm : m ≤ nd) (st : DpState) :
    dpLayerInit nf v1 m st = dpLayerInit nf v2 m st := by
  rw [dpLayerInit, dpLayerInit]
  apply foldl_congr_mem
  intro s kept hkept
  obtain ⟨hkl, hkc⟩ := (mem_iter_possible_rolls hf kept).mp hkept
  rw [h kept hkc (by omega)]

theorem compute_from_cond_dp_congr {nd nf : ℕ} (hf : 1 ≤ nf) (kao : Bool) {v1 v2 : ValTable}
    (h : ∀ k : Roll, Canonical nf k → k.length ≤ nd → getVal v1 k = getVal v2 k) :
    compute_from_cond_dp nd nf kao v1 = compute_from_cond_dp nd nf kao v2 := by
  rw [compute_from_cond_dp, compute_from_cond_dp]
  have hst0 : (getVal v1 []).getD 0 = (getVal v2 []).getD 0 := by
    rw [h [] (canonical_nil nf) (by simp)]
  rw [hst0]
  have hfold : (List.range nd).foldl
      (fun st k => dpRelax nf kao (k + 1) (dpLayerInit nf v1 (k + 1) st))
      { roll_values := [([], (getVal v2 []).getD 0)]
        move_ref := [([], 0)]
        store := [[([] : Roll)]] } =
    (List.range nd).foldl
      (fun st k => dpRelax nf kao (k + 1) (dpLayerInit nf v2 (k + 1) st))
      { roll_values := [([], (getVal v2 []).getD 0)]
        move_ref := [([], 0)]
        store := [[([] : Roll)]] } := by
    apply foldl_congr_mem
    intro st k hk
    rw [dpLayerInit_congr hf h (by have := List.mem_range.mp hk; omega) st]
  rw [hfold]

theorem cvk_agree {nd nf : ℕ} (hf : 1 ≤ nf) {t1 t2 : ValTable}
    (htot1 : ∀ r : Roll, Canonical nf r → r.length = nd → (getVal t1 r).isSome = true)
    (htot2 : ∀ r : Roll, Canonical nf r → r.length = nd → (getVal t2 r).isSome = true)
    (hagree : ∀ r : Roll, List.Sorted (· ≤ ·) r → r.length = nd →
      getVal t1 r = getVal t2 r) :
    ∀ k : Roll, Canonical nf k → k.length ≤ nd →
      getVal (compute_values_given_kept nd nf t1) k =
      getVal (compute_values_given_kept nd nf t2) k := by
  intro k hc hl
  rw [getVal_compute_values_given_kept hf t1 htot1 k,
    getVal_compute_values_given_kept hf t2 htot2 k]
  by_cases h2 : k.length < nd
  · rw [if_pos ⟨hc, h2⟩, if_pos ⟨hc, h2⟩]
    congr 1
    refine vgkFun_congr (nd - k.length) k ?_ hc.1
    intro r hr hrl
    rw [hagree r hr (by omega)]
  · rw [if_neg (fun hx => h2 hx.2), if_neg (fun hx => h2 hx.2)]
    exact hagree k hc.1 (by omega)

theorem roundTables_zero_eq (nd nf : ℕ) (kao udp : Bool) (parsed : ValTable) :
    roundTables nd nf kao udp parsed 0 = parsed := by
  rw [roundTables]

theorem roundTables_succ_eq (nd nf : ℕ) (kao udp : Bool) (parsed : ValTable) (j : ℕ) :
    roundTables nd nf kao udp parsed (j + 1) =
      (compute_strategy_one_roll nd nf kao udp (roundTables nd nf kao udp parsed j)).1 := by
  rw [roundTables]

theorem roundTables_congr {nd nf : ℕ} (hf : 1 ≤ nf) (kao udp : Bool) {p1 p2 : ValTable}
    (htot1 : ∀ r : Roll, Canonical nf r → r.length = nd → (getVal p1 r).isSome = true)
    (htot2 : ∀ r : Roll, Canonical nf r → r.length = nd → (getVal p2 r).isSome = true)
    (hagree : ∀ r : Roll, List.Sorted (· ≤ ·) r → r.length = nd →
      getVal p1 r = getVal p2 r) :
    (∀ j : ℕ, roundTables nd nf kao udp p1 (j + 1) = roundTables nd nf kao udp p2 (j + 1)) ∧
    (∀ j : ℕ, compute_strategy_one_roll nd nf kao udp (roundTables nd nf kao udp p1 j) =
      compute_strategy_one_roll nd nf kao udp (roundTables nd nf kao udp p2 j)) := by
  have hone : compute_strategy_one_roll nd nf kao udp p1 =
      compute_strategy_one_roll nd nf kao udp p2 := by
    rw [compute_strategy_one_roll, compute_strategy_one_roll,
      compute_from_conditional_values, compute_from_conditional_values]
    have hag := cvk_agree hf htot1 htot2 hagree
    cases udp with
    | false =>
      rw [if_neg (by simp), if_neg (by simp)]
      exact compute_from_cond_congr hf kao hag
    | true =>
      rw [if_pos rfl, if_pos rfl]
      exact compute_from_cond_dp_congr hf kao hag
  have htab : ∀ j : ℕ, roundTables nd nf kao udp p1 (j + 1) =
      roundTables nd nf kao udp p2 (j + 1) := by
    intro j
    induction j with
    | zero =>
      rw [roundTables_succ_eq, roundTables_succ_eq, roundTables_zero_eq,
        roundTables_zero_eq, hone]
    | succ j ih =>
      rw [roundTables_succ_eq nd nf kao udp p1 (j + 1),
        roundTables_succ_eq nd nf kao udp p2 (j + 1), ih]
  refine ⟨htab, ?_⟩
  intro j
  cases j with
  | zero =>
    rw [roundTables_zero_eq, roundTables_zero_eq]
    exact hone
  | succ j =>
    rw [htab j]

/-- C10 (amended): when the whole input is conflict-free and the entries
canonicalizing to the dice-count length are total, extra entries whose keys
canonicalize to any other length raise no error; they are retained in the
stored terminal table, while every round value table and every optimal move
table of the rounds before the terminal one is exactly the one computed
from the input without the extra entries. -/
theorem c10_extras_amended (nd nf nr : ℕ) (hf : 1 ≤ nf) (kao udp : Bool)
    (base extras : List (Roll × ℚ))
    (hex : ∀ p ∈ extras, (sortRoll p.1).length ≠ nd)
    (hcons : Consistent (base ++ extras))
    (htot : ∀ r ∈ iter_possible_rolls nd nf, ∃ p ∈ base, sortRoll p.1 = r) :
    ∃ w1 w2 : Widget,
      mkWidget nd nf nr kao udp base = Except.ok w1 ∧
      mkWidget nd nf nr kao udp (base ++ extras) = Except.ok w2 ∧
      (∃ p2 : ValTable, parse_roll_values nd nf (base ++ extras) = Except.ok p2 ∧
        ∀ p ∈ extras, hasKey p2 (sortRoll p.1) = true) ∧
      (∀ i : ℕ, i + 1 < nr → w1.roll_values.get? i = w2.roll_values.get? i) ∧
      (∀ i : ℕ, i + 1 < nr → w1.optimal_moves.get? i = w2.optimal_moves.get? i) := by
  have hconsb : Consistent base :=
    List.Pairwise.sublist (List.sublist_append_left base extras) hcons
  obtain ⟨p1, hp1, hg1⟩ := parse_ok_of hconsb htot
  have htot2 : ∀ r ∈ iter_possible_rolls nd nf, ∃ p ∈ base ++ extras, sortRoll p.1 = r := by
    intro r hr
    obtain ⟨p, hp, hps⟩ := htot r hr
    exact ⟨p, List.mem_append_left extras hp, hps⟩
  obtain ⟨p2, hp2, hg2⟩ := parse_ok_of hcons htot2
  have hagree : ∀ r : Roll, List.Sorted (· ≤ ·) r → r.length = nd →
      getVal p1 r = getVal p2 r := by
    intro r hr hrl
    rw [hg1 r, hg2 r, entryFor_append_of_ne]
    intro p hp hps
    apply hex p hp
    rw [hps]
    exact hrl
  have htotp1 : ∀ r : Roll, Canonical nf r → r.length = nd →
      (getVal p1 r).isSome = true := fun r hc hl =>
    (parse_ok_props hp1).2 r ((mem_iter_possible_rolls hf r).mpr ⟨hl, hc⟩)
  have htotp2 : ∀ r : Roll, Canonical nf r → r.length = nd →
      (getVal p2 r).isSome = true := fun r hc hl =>
    (parse_ok_props hp2).2 r ((mem_iter_possible_rolls hf r).mpr ⟨hl, hc⟩)
  obtain ⟨htab, hcsor⟩ := roundTables_congr hf kao udp htotp1 htotp2 hagree
  refine ⟨compute_strategy_and_values nd nf kao udp nr
      ⟨List.replicate (nr - 1) [] ++ [p1], List.replicate (nr - 1) []⟩,
    compute_strategy_and_values nd nf kao udp nr
      ⟨List.replicate (nr - 1) [] ++ [p2], List.replicate (nr - 1) []⟩,
    ?_, ?_, ⟨p2, hp2, ?_⟩, ?_, ?_⟩
  · rw [mkWidget, hp1]
  · rw [mkWidget, hp2]
  · intro p hp
    rw [hasKey, hg2]
    have h2 : (entryFor (base ++ extras) (sortRoll p.1)).isSome = true :=
      (entryFor_isSome _ _).mpr ⟨p, List.mem_append_right base hp, rfl⟩
    cases h3 : entryFor (base ++ extras) (sortRoll p.1) with
    | none =>
      rw [h3] at h2
      simp at h2
    | some q =>
      rfl
  · intro i hi1
    have hs1 := (compute_strategy_and_values_spec nd nf kao udp nr p1).1 i (by omega)
    have hs2 := (compute_strategy_and_values_spec nd nf kao udp nr p2).1 i (by omega)
    rw [hs1, hs2]
    have he : nr - 1 - i = (nr - 2 - i) + 1 := by omega
    rw [he, htab (nr - 2 - i)]
  · intro i hi1
    have hs1 := (compute_strategy_and_values_spec nd nf kao udp nr p1).2 i hi1
    have hs2 := (compute_strategy_and_values_spec nd nf kao udp nr p2).2 i hi1
    rw [hs1, hs2, hcsor (nr - 1 - (i + 1))]

instance (input : List (Roll × ℚ)) : Decidable (Consistent input) := by
  unfold Consistent
  infer_instance

/-- Witness for C10's amended statement: one die, two faces, two rounds;
the extra entry for the empty roll is accepted, retained, and leaves the
round-0 tables unchanged. -/
theorem c10_extras_amended_witness :
    ∃ w1 w2 : Widget,
      mkWidget 1 2 2 false true [([1], 0), ([2], 10)] = Except.ok w1 ∧
      mkWidget 1 2 2 false true ([([1], 0), ([2], 10)] ++ [([], 3)]) = Except.ok w2 ∧
      (∃ p2 : ValTable, parse_roll_values 1 2 ([([1], 0), ([2], 10)] ++ [([], 3)]) =
          Except.ok p2 ∧
        ∀ p ∈ [(([] : Roll), (3 : ℚ))], hasKey p2 (sortRoll p.1) = true) ∧
      (∀ i : ℕ, i + 1 < 2 → w1.roll_values.get? i = w2.roll_values.get? i) ∧
      (∀ i : ℕ, i + 1 < 2 → w1.optimal_moves.get? i = w2.optimal_moves.get? i) :=
  c10_extras_amended 1 2 2 (by decide) false true [([1], 0), ([2], 10)] [([], 3)]
    (by decide) (by with_unfolding_all decide) (by with_unfolding_all decide)
